import Mathlib

/-!
Verification of the field-resolution and relationship-graph subsystem of the
intercom-help-center-automation repository.

The Python sources are shallowly embedded as executable Lean definitions:
strings are `List Char`, the regular-expression rewrites of the source are
specialised character-level scanners (each scanner is documented with the
regex it implements), external collaborators (the Google-Sheets ledger, the
Intercom publisher) are oracle function parameters, and the imperative
loops become folds / fuel-indexed structural recursions.  The fuel given by
a wrapper is always an upper bound on the number of scanning steps, so the
fuelled functions agree with the unbounded loops of the source.
-/

set_option maxRecDepth 20000

/-- Convert a Lean string literal to the `List Char` representation used
throughout this development. -/
def chars (s : String) : List Char := s.data

/-- The apostrophe character (written numerically). -/
def quoteCh : Char := Char.ofNat 39

/-- The double-quote character (written numerically). -/
def dquoteCh : Char := Char.ofNat 34

/-- Python `pat in s` substring test. -/
def isSubstr (pat : List Char) : List Char → Bool
  | [] => pat.isEmpty
  | c :: rest => pat.isPrefixOf (c :: rest) || isSubstr pat rest

/-- ASCII lowercase letter test (the `[a-z]` class of the source regexes). -/
def isLowerAZ (c : Char) : Bool := decide (Char.ofNat 97 ≤ c ∧ c ≤ Char.ofNat 122)

/-- Python `str` whitespace (`\s` of `re`, ASCII part): space, tab, newline,
carriage return, vertical tab, form feed. -/
def isPySpace (c : Char) : Bool :=
  c = ' ' || c = Char.ofNat 9 || c = Char.ofNat 10 || c = Char.ofNat 13 ||
  c = Char.ofNat 11 || c = Char.ofNat 12

/-- Python word character (`\w` of `re`, ASCII part): letters, digits, underscore. -/
def isWordCh (c : Char) : Bool :=
  isLowerAZ c || decide (Char.ofNat 65 ≤ c ∧ c ≤ Char.ofNat 90) ||
  decide (Char.ofNat 48 ≤ c ∧ c ≤ Char.ofNat 57) || c = Char.ofNat 95

/-- Python `str.strip()`: drop leading and trailing whitespace. -/
def pyStrip (s : List Char) : List Char :=
  ((s.dropWhile isPySpace).reverse.dropWhile isPySpace).reverse

/-- Case-insensitive prefix test (per-character ASCII lowering, as `re.IGNORECASE`). -/
def ciPrefixOf (pat s : List Char) : Bool :=
  (pat.map Char.toLower).isPrefixOf (s.map Char.toLower)

/-- Case-insensitive substring test. -/
def ciSubstr (pat s : List Char) : Bool :=
  isSubstr (pat.map Char.toLower) (s.map Char.toLower)

/-- Fuelled body of Python `str.replace(pat, rep)` (replace every
non-overlapping occurrence, scanning left to right).  The wrapper
`replaceAll` supplies fuel `s.length`, which is enough because every step
consumes at least one character of the remaining input. -/
def replaceAllAux (pat rep : List Char) : Nat → List Char → List Char
  | 0, s => s
  | _ + 1, [] => []
  | fuel + 1, c :: rest =>
    if pat ≠ [] ∧ pat.isPrefixOf (c :: rest) then
      rep ++ replaceAllAux pat rep fuel (List.drop (pat.length - 1) rest)
    else
      c :: replaceAllAux pat rep fuel rest

/-- Python `s.replace(pat, rep)`. -/
def replaceAll (pat rep s : List Char) : List Char :=
  replaceAllAux pat rep s.length s

/-- Fuelled occurrence decomposition behind `str.replace`: the segments of
`s` between the non-overlapping, left-to-right occurrences of `sep`.  The
scan mirrors `replaceAllAux` step for step, so `s.replace(sep, rep)` is
exactly rejoining these segments with `rep`. -/
def splitSepAux (sep : List Char) : Nat → List Char → List (List Char)
  | 0, s => [s]
  | _ + 1, [] => [[]]
  | fuel + 1, c :: rest =>
    if sep ≠ [] ∧ sep.isPrefixOf (c :: rest) then
      [] :: splitSepAux sep fuel (List.drop (sep.length - 1) rest)
    else
      match splitSepAux sep fuel rest with
      | [] => [[c]]
      | s0 :: tailSegs => (c :: s0) :: tailSegs

/-- Segment decomposition of `s` along the separator `sep` (the
spec-side view of "every occurrence of the divider"). -/
def splitSep (sep s : List Char) : List (List Char) := splitSepAux sep s.length s

/-- Concatenation of the images of a list (used instead of `List.bind` to keep
congruence reasoning elementary). -/
def concatMapL {α β : Type} (f : α → List β) : List α → List β
  | [] => []
  | a :: as => f a ++ concatMapL f as

/-- Join string pieces with a separator (Python `sep.join(parts)`). -/
def joinSep (sep : List Char) : List (List Char) → List Char
  | [] => []
  | [x] => x
  | x :: y :: ys => x ++ sep ++ joinSep sep (y :: ys)

/-! ### `DataFieldAnalyzer.clean_tableau_field_name`

The cleaning pipeline of `data_field_analyzer.py` lines 100-137.  Each
regex substitution of the source is realised as a character scanner that is
equivalent to the (backtracking) regex on every input, as argued in the
doc comment of each step. -/

/-- Step A, `re.sub(r'^[a-z]+:', '', text)`: the anchored pattern matches
iff a nonempty maximal leading lowercase run is followed by a colon (greedy
`[a-z]+` cannot backtrack onto a colon because every shorter run is
followed by a lowercase letter). -/
def stepA (s : List Char) : List Char :=
  let run := s.takeWhile isLowerAZ
  if run ≠ [] ∧ (s.drop run.length).take 1 = [':'] then
    s.drop (run.length + 1)
  else s

/-- Inner-dot test for step B: the bracket content `R` can be split as
`[^\]]+ '.' [^\]]+` iff some dot occurs at an index `1 ≤ i ≤ |R| - 2`,
i.e. iff `R` with its first and last characters removed contains a dot. -/
def hasInnerDot (r : List Char) : Bool := ((r.drop 1).dropLast).contains '.'

/-- Step B, `re.sub(r'\[[^\]]+\.[^\]]+\]\.', '', text)`: at an opening
bracket, the `]` of the pattern can only match the first `]` after it, so a
match deletes `'[' ++ R ++ "]."` where `R` is the maximal bracket-free run,
provided `R` has an inner dot and is followed by `"]."`. -/
def stepBAux : Nat → List Char → List Char
  | 0, s => s
  | _ + 1, [] => []
  | fuel + 1, c :: rest =>
    if c = '[' then
      let r := rest.takeWhile (fun x => x ≠ ']')
      let after := rest.drop r.length
      if r ≠ [] ∧ after.take 2 = [']', '.'] ∧ hasInnerDot r then
        stepBAux fuel (after.drop 2)
      else c :: stepBAux fuel rest
    else c :: stepBAux fuel rest

/-- Step B wrapper. -/
def stepB (s : List Char) : List Char := stepBAux s.length s

/-- The aggregation keywords of step C, in the alternation order of the
source pattern. -/
def aggKeywords : List (List Char) :=
  [chars "sum", chars "none", chars "avg", chars "min", chars "max",
   chars "attr", chars "usr", chars "tmn", chars "pcto", chars "mn"]

/-- Find the first keyword (in alternation order) that matches
case-insensitively at the head of `s` and is immediately followed by a
colon; return the matched length (keyword plus colon). -/
def findAggKw : List (List Char) → List Char → Option Nat
  | [], _ => none
  | kw :: kws, s =>
    if ciPrefixOf kw s ∧ (s.drop kw.length).take 1 = [':'] then
      some (kw.length + 1)
    else findAggKw kws s

/-- Step C first substitution,
`re.sub(r'\b(sum|none|avg|min|max|attr|usr|tmn|pcto|mn):', '', text, flags=IGNORECASE)`.
`prev` is the character preceding the scan position (`none` at the start);
the word boundary holds iff it is absent or a non-word character, every
keyword starting with a letter. -/
def boundaryOk (prev : Option Char) : Bool :=
  match prev with
  | none => true
  | some p => !(isWordCh p)

/-- Scanner body of the first step C substitution. -/
def stepC1Aux : Nat → Option Char → List Char → List Char
  | 0, _, s => s
  | _ + 1, _, [] => []
  | fuel + 1, prev, c :: rest =>
    match if boundaryOk prev then findAggKw aggKeywords (c :: rest) else none with
    | some n => stepC1Aux fuel (some ':') ((c :: rest).drop n)
    | none => c :: stepC1Aux fuel (some c) rest

/-- Step C first substitution wrapper. -/
def stepC1 (s : List Char) : List Char := stepC1Aux s.length none s

/-- Step C second substitution, `re.sub(r':(qk|nk|ok)', '', text, flags=IGNORECASE)`. -/
def stepC2Aux : Nat → List Char → List Char
  | 0, s => s
  | _ + 1, [] => []
  | fuel + 1, c :: rest =>
    if c = ':' ∧ (ciPrefixOf (chars "qk") rest ∨ ciPrefixOf (chars "nk") rest ∨
        ciPrefixOf (chars "ok") rest) then
      stepC2Aux fuel (rest.drop 2)
    else c :: stepC2Aux fuel rest

/-- Step C second substitution wrapper. -/
def stepC2 (s : List Char) : List Char := stepC2Aux s.length s

/-- ASCII digit test. -/
def isDigitCh (c : Char) : Bool := decide (Char.ofNat 48 ≤ c ∧ c ≤ Char.ofNat 57)

/-- Step C third substitution, `re.sub(r':[0-9]+', '', text)`: delete a colon
together with the maximal nonempty digit run following it. -/
def stepC3Aux : Nat → List Char → List Char
  | 0, s => s
  | _ + 1, [] => []
  | fuel + 1, c :: rest =>
    if c = ':' ∧ rest.take 1 ≠ [] ∧ (rest.take 1).all isDigitCh then
      stepC3Aux fuel (rest.dropWhile isDigitCh)
    else c :: stepC3Aux fuel rest

/-- Step C third substitution wrapper. -/
def stepC3 (s : List Char) : List Char := stepC3Aux s.length s

/-- The characters removed by step D. -/
def stepDChars : List Char := ['[', ']', dquoteCh, '(', ')']

/-- Step D: `text.replace('[','').replace(']','').replace('"','').replace('(','').replace(')','')`. -/
def stepD (s : List Char) : List Char := s.filter (fun c => !(stepDChars.contains c))

/-- Split on `*` or `/` (`re.split(r'[\*/]', text)`). -/
def splitMulDivAux : List Char → List Char → List (List Char)
  | [], cur => [cur.reverse]
  | c :: rest, cur =>
    if c = '*' ∨ c = '/' then cur.reverse :: splitMulDivAux rest []
    else splitMulDivAux rest (c :: cur)

/-- Split wrapper. -/
def splitMulDiv (s : List Char) : List (List Char) := splitMulDivAux s []

/-- Step E part collection: strip each part, keep it when nonempty and not
already collected (order preserved). -/
def collectParts (parts : List (List Char)) : List (List Char) :=
  parts.foldl
    (fun acc p =>
      let p := pyStrip p
      if p ≠ [] ∧ !(acc.contains p) then acc ++ [p] else acc)
    []

/-- Step E: formula decomposition, deduplication and `", ".join`. -/
def stepE (s : List Char) : List Char := joinSep (chars ", ") (collectParts (splitMulDiv s))

/-- `DataFieldAnalyzer.clean_tableau_field_name` (data_field_analyzer.py
lines 100-137). -/
def clean_tableau_field_name (text : List Char) : List Char :=
  if text = [] ∨ text = chars "None" then chars "None"
  else stepE (stepD (stepC3 (stepC2 (stepC1 (stepB (stepA text))))))

/-! ### `DataFieldAnalyzer._translate_formula` (lines 230-240) -/

/-- Python `str.split()` (split on whitespace runs, dropping empty pieces). -/
def pySplitWsAux : List Char → List Char → List (List Char)
  | [], cur => if cur = [] then [] else [cur.reverse]
  | c :: rest, cur =>
    if isPySpace c then
      if cur = [] then pySplitWsAux rest []
      else cur.reverse :: pySplitWsAux rest []
    else pySplitWsAux rest (c :: cur)

/-- Python `str.split()`. -/
def pySplitWs (s : List Char) : List (List Char) := pySplitWsAux s []

/-- Insert an entry into a list already sorted by non-increasing key length,
placing it before the first entry of equal-or-smaller key length.  Together
with `sortLenDesc` this realises Python's stable
`sorted(items, key=lambda x: len(x[0]), reverse=True)`. -/
def insertLenDesc (x : List Char × List Char) :
    List (List Char × List Char) → List (List Char × List Char)
  | [] => [x]
  | y :: ys => if y.1.length ≤ x.1.length then x :: y :: ys else y :: insertLenDesc x ys

/-- Stable sort of a translation table by key length, longest first. -/
def sortLenDesc : List (List Char × List Char) → List (List Char × List Char)
  | [] => []
  | x :: xs => insertLenDesc x (sortLenDesc xs)

/-- `DataFieldAnalyzer._translate_formula`: whitespace-normalise the raw
formula, then rewrite every identifier of the translation table into its
human name, processing identifiers by non-increasing length (the table is
an insertion-ordered association list, as a Python dict). -/
def translate_formula (raw_formula : List Char) (id_to_human : List (List Char × List Char)) :
    List Char :=
  if raw_formula = [] then []
  else
    (sortLenDesc id_to_human).foldl
      (fun clean p => if isSubstr p.1 clean then replaceAll p.1 p.2 clean else clean)
      (joinSep [' '] (pySplitWs raw_formula))

/-! ### `DataFieldAnalyzer._scrape_range_limits` (lines 258-284)

A `<filter>` element of the workbook document is modelled by the data the
function reads from it: its `column` attribute, its `min`/`max` attributes,
and the text of its `min`/`max` child elements (the outer `Option` is
presence of the child, the inner one presence of its text). -/

structure FilterElem where
  column : Option (List Char)
  minAttr : Option (List Char)
  minChild : Option (Option (List Char))
  maxAttr : Option (List Char)
  maxChild : Option (Option (List Char))
deriving DecidableEq, Repr

/-- The `min`/`max` value the source ends up with: the attribute if present,
else the child's text if the child exists, else `None`. -/
def effBound (attr : Option (List Char)) (child : Option (Option (List Char))) :
    Option (List Char) :=
  match attr with
  | some v => some v
  | none => match child with
    | some t => t
    | none => none

/-- Python truthiness of the optional string bound. -/
def boundTruthy (o : Option (List Char)) : Bool :=
  match o with
  | some v => !v.isEmpty
  | none => false

/-- The candidate string `f"Min: {…}, Max: {…}"` built by the source. -/
def rangeCandidate (mi ma : Option (List Char)) : List Char :=
  chars "Min: " ++ (if boundTruthy mi then mi.getD [] else chars "-Inf") ++
  chars ", Max: " ++ (if boundTruthy ma then ma.getD [] else chars "Inf")

/-- Does this filter match the target name?  The source requires a truthy
`column` attribute containing the bracket-stripped target as a substring. -/
def filterMatches (cleanName : List Char) (f : FilterElem) : Bool :=
  match f.column with
  | some c => !c.isEmpty && isSubstr cleanName c
  | none => false

/-- Does this filter carry a (truthy) min or max bound? -/
def filterCarries (f : FilterElem) : Bool :=
  boundTruthy (effBound f.minAttr f.minChild) || boundTruthy (effBound f.maxAttr f.maxChild)

/-- `DataFieldAnalyzer._scrape_range_limits`: collect a formatted candidate
for every matching filter carrying a bound, and return the first (document
order), or `None`. -/
def scrape_range_limits (target_name_raw : List Char) (filters : List FilterElem) :
    Option (List Char) :=
  let cleanName := (target_name_raw.filter (fun c => c ≠ '[')).filter (fun c => c ≠ ']')
  let candidates := filters.foldl
    (fun acc f =>
      if filterMatches cleanName f ∧ filterCarries f then
        acc ++ [rangeCandidate (effBound f.minAttr f.minChild) (effBound f.maxAttr f.maxChild)]
      else acc)
    []
  candidates.head?

/-! ### `HTMLFormatter` related-section injection (html_formatter.py lines 481-571)

The pattern `<p><strong>SECTION:</strong>.*?</p>\s*<p>&nbsp;</p>` (DOTALL)
used by `re.sub` in the source is matched by `findLazyTail`/`regexSubSec`:
after the literal opening, the lazy `.*?` takes the least number of
characters such that `</p>`, then a whitespace run, then the literal
spacer `<p>&nbsp;</p>` follow.  Since the spacer begins with a non-space
character, the greedy `\s*` can only stand for the maximal whitespace run,
so the match end is determined exactly as computed here. -/

/-- `</p>` then `\s*` then `<p>&nbsp;</p>` at the head of `s`; returns the
matched length. -/
def findTailEnd (s : List Char) : Option Nat :=
  if (chars "</p>").isPrefixOf s then
    if (chars "<p>&nbsp;</p>").isPrefixOf
        ((s.drop 4).drop ((s.drop 4).takeWhile isPySpace).length) then
      some (4 + ((s.drop 4).takeWhile isPySpace).length + 13)
    else none
  else none

/-- Least `k` such that the closing part of the pattern matches after
skipping `k` characters (the lazy `.*?`); returns `(k, tail length)`. -/
def findLazyTail : List Char → Option (Nat × Nat)
  | [] => none
  | c :: t =>
    match findTailEnd (c :: t) with
    | some m => some (0, m)
    | none => (findLazyTail t).map (fun p => (p.1 + 1, p.2))

/-- Fuelled body of
`re.sub('<p><strong>' ++ secName ++ '</strong>.*?</p>\s*<p>&nbsp;</p>', rep(match), s)`:
scan left to right, replace every non-overlapping match, where the
replacement may use the matched text (for the back-reference `\1` used by
the chart variant).  Fuel `s.length` suffices: each step consumes at least
one character. -/
def regexSubSecAux (lit1 : List Char) (rep : List Char → List Char) :
    Nat → List Char → List Char
  | 0, s => s
  | _ + 1, [] => []
  | fuel + 1, c :: rest =>
    if lit1.isPrefixOf (c :: rest) then
      match findLazyTail ((c :: rest).drop lit1.length) with
      | some p =>
        let matched := (c :: rest).take (lit1.length + p.1 + p.2)
        rep matched ++ regexSubSecAux lit1 rep fuel ((c :: rest).drop (lit1.length + p.1 + p.2))
      | none => c :: regexSubSecAux lit1 rep fuel rest
    else c :: regexSubSecAux lit1 rep fuel rest

/-- Regex-substitution wrapper. -/
def regexSubSec (lit1 : List Char) (rep : List Char → List Char) (s : List Char) : List Char :=
  regexSubSecAux lit1 rep s.length s

/-- One `<li>` line of a rendered related-items list. -/
def relatedItemLine (name url : List Char) : List Char :=
  if name ≠ [] ∧ url ≠ [] then
    chars "<li><a href=" ++ [dquoteCh] ++ url ++ [dquoteCh] ++ chars " target=" ++
      [dquoteCh] ++ chars "_blank" ++ [dquoteCh] ++ chars ">" ++ name ++ chars "</a></li>" ++
      [Char.ofNat 10]
  else if name ≠ [] then
    chars "<li>" ++ name ++ chars "</li>" ++ [Char.ofNat 10]
  else []

/-- The freshly rendered section
`'<p><strong>' + secName + ':</strong><ul>\n' + items + '</ul></p>\n<p>&nbsp;</p>\n'`
built by both injection functions (zip truncates to the shorter list, as in
Python). -/
def renderSection (secName : List Char) (names urls : List (List Char)) : List Char :=
  chars "<p><strong>" ++ secName ++ chars ":</strong><ul>" ++ [Char.ofNat 10] ++
  concatMapL (fun p => relatedItemLine p.1 p.2) (names.zip urls) ++
  chars "</ul></p>" ++ [Char.ofNat 10] ++ chars "<p>&nbsp;</p>" ++ [Char.ofNat 10]

/-- The marker substring checked by `inject_related_charts_to_field_html`. -/
def relatedChartsMarker : List Char := chars "<strong>Related Charts:</strong>"

/-- The literal opening of the Related-Charts block pattern. -/
def relatedChartsLit : List Char := chars "<p><strong>Related Charts:</strong>"

/-- The marker substring checked by `inject_related_articles_to_chart_html`. -/
def relatedArticlesMarker : List Char := chars "<strong>Related Articles:</strong>"

/-- The literal opening of the Related-Articles block pattern. -/
def relatedArticlesLit : List Char := chars "<p><strong>Related Articles:</strong>"

/-- `HTMLFormatter.inject_related_charts_to_field_html` (lines 481-523). -/
def inject_related_charts_to_field_html
    (existing_html : List Char) (related_charts_names related_charts_urls : List (List Char)) :
    List Char :=
  if related_charts_names = [] ∨ related_charts_urls = [] then existing_html
  else if isSubstr relatedChartsMarker existing_html then
    regexSubSec relatedChartsLit
      (fun _ => renderSection (chars "Related Charts") related_charts_names related_charts_urls)
      existing_html
  else if isSubstr (chars "<hr>") existing_html then
    replaceAll (chars "<hr>")
      (renderSection (chars "Related Charts") related_charts_names related_charts_urls ++
        chars "<hr>")
      existing_html
  else
    existing_html ++ [Char.ofNat 10] ++
      renderSection (chars "Related Charts") related_charts_names related_charts_urls

/-- `HTMLFormatter.inject_related_articles_to_chart_html` (lines 524-571). -/
def inject_related_articles_to_chart_html
    (existing_html : List Char) (related_articles_names related_articles_urls : List (List Char)) :
    List Char :=
  if related_articles_names = [] ∨ related_articles_urls = [] then existing_html
  else if isSubstr relatedArticlesMarker existing_html then
    regexSubSec relatedArticlesLit
      (fun _ => renderSection (chars "Related Articles") related_articles_names
        related_articles_urls)
      existing_html
  else if isSubstr relatedChartsMarker existing_html then
    regexSubSec relatedChartsLit
      (fun matched => matched ++ [Char.ofNat 10] ++
        renderSection (chars "Related Articles") related_articles_names related_articles_urls)
      existing_html
  else
    existing_html ++ [Char.ofNat 10] ++
      renderSection (chars "Related Articles") related_articles_names related_articles_urls

/-! ### `DataFieldAnalyzer._scrape_filter_values` (lines 242-256)

The source scans the raw workbook text with
`re.findall(r"level='[^']*NAME[^']*'.*?member='([^']*)'", xml, IGNORECASE | DOTALL)`.
Both `[^']*` pieces can only cover the quote-free run following `level='`,
so a match requires that run to contain NAME (case-insensitively) and to be
closed by a quote; the lazy `.*?` then reaches for the first following
`member='` whose value run is closed by a quote.  The scanner below
implements exactly that (for target names not containing a quote, which is
the shape of every Tableau field name handled by the source). -/

/-- Search for `member='([^']*)'` at successive positions (the lazy `.*?`);
return the captured value and the remainder after its closing quote. -/
def memberSearch : List Char → Option (List Char × List Char)
  | [] => none
  | c :: rest =>
    if ciPrefixOf (chars "member=" ++ [quoteCh]) (c :: rest) then
      let body := (c :: rest).drop 8
      let cap := body.takeWhile (fun x => x ≠ quoteCh)
      let aft := body.drop cap.length
      if aft ≠ [] then some (cap, aft.drop 1)
      else memberSearch rest
    else memberSearch rest

/-- Fuelled findall scan for the level/member pattern. -/
def scrapeRawAux (nameLower : List Char) : Nat → List Char → List (List Char)
  | 0, _ => []
  | _ + 1, [] => []
  | fuel + 1, c :: rest =>
    if ciPrefixOf (chars "level=" ++ [quoteCh]) (c :: rest) then
      let body := (c :: rest).drop 7
      let run := body.takeWhile (fun x => x ≠ quoteCh)
      let aft := body.drop run.length
      if isSubstr nameLower (run.map Char.toLower) ∧ aft ≠ [] then
        match memberSearch (aft.drop 1) with
        | some p => p.1 :: scrapeRawAux nameLower fuel p.2
        | none => scrapeRawAux nameLower fuel rest
      else scrapeRawAux nameLower fuel rest
    else scrapeRawAux nameLower fuel rest

/-- Percent-decoding of `urllib.parse.unquote`, modelled for single-byte
(ASCII) escapes `%XX`, `XX < 0x80`; other escape sequences are left as
written (no claim exercises multi-byte escapes). -/
def hexVal (c : Char) : Option Nat :=
  if isDigitCh c then some (c.toNat - 48)
  else if decide (Char.ofNat 97 ≤ c ∧ c ≤ Char.ofNat 102) then some (c.toNat - 87)
  else if decide (Char.ofNat 65 ≤ c ∧ c ≤ Char.ofNat 70) then some (c.toNat - 55)
  else none

/-- Fuelled percent-decoder. -/
def pctDecodeAux : Nat → List Char → List Char
  | 0, s => s
  | _ + 1, [] => []
  | fuel + 1, c :: rest =>
    if c = '%' then
      match rest with
      | h1 :: h2 :: rest2 =>
        match hexVal h1, hexVal h2 with
        | some a, some b =>
          if a * 16 + b < 128 then Char.ofNat (a * 16 + b) :: pctDecodeAux fuel rest2
          else c :: pctDecodeAux fuel rest
        | _, _ => c :: pctDecodeAux fuel rest
      | _ => c :: pctDecodeAux fuel rest
    else c :: pctDecodeAux fuel rest

/-- `urllib.parse.unquote` (ASCII fragment). -/
def pctDecode (s : List Char) : List Char := pctDecodeAux s.length s

/-- Lexicographic comparison on character lists (Python `<` on `str`). -/
def lexLt : List Char → List Char → Bool
  | [], [] => false
  | [], _ :: _ => true
  | _ :: _, [] => false
  | a :: as, b :: bs => a < b || (a = b && lexLt as bs)

/-- Insertion into a lexicographically sorted list. -/
def insertLex (x : List Char) : List (List Char) → List (List Char)
  | [] => [x]
  | y :: ys => if lexLt x y then x :: y :: ys else y :: insertLex x ys

/-- `sorted(…)` over strings. -/
def sortLex : List (List Char) → List (List Char)
  | [] => []
  | x :: xs => insertLex x (sortLex xs)

/-- Membership-based deduplication (Python `set(…)` collected then sorted:
only the member set matters, so collect first occurrences). -/
def dedupL (l : List (List Char)) : List (List Char) :=
  l.foldl (fun acc v => if acc.contains v then acc else acc ++ [v]) []

/-- `DataFieldAnalyzer._scrape_filter_values`: find member values bound to
the field, clean each (`&quot;` and `"` removal, percent-decoding), drop
empties and the `%null%` sentinel, then return the sorted set. -/
def scrape_filter_values (target_name_raw : List Char) (workbook_xml : List Char) :
    List (List Char) :=
  let cleanName := (target_name_raw.filter (fun c => c ≠ '[')).filter (fun c => c ≠ ']')
  let raw := scrapeRawAux (cleanName.map Char.toLower) workbook_xml.length workbook_xml
  let vals := raw.map (fun m =>
    pctDecode ((replaceAll (chars "&quot;") [] m).filter (fun c => c ≠ dquoteCh)))
  let kept := vals.filter (fun v => v ≠ [] ∧ v.map Char.toLower ≠ chars "%null%")
  sortLex (dedupL kept)

/-! ### `DataFieldAnalyzer._generate_context_tree` (lines 286-355) -/

/-- A row of the field knowledge base (`field_map` values). -/
structure FieldInfo where
  raw_name : List Char
  role : List Char
  datatype : List Char
  is_calc : Bool
  formula : List Char
deriving DecidableEq, Repr

/-- Association-list lookup (Python dict read). -/
def lookupA {β : Type} (m : List (List Char × β)) (k : List Char) : Option β :=
  match m with
  | [] => none
  | p :: rest => if p.1 = k then some p.2 else lookupA rest k

/-- `re.findall(r"\[([^\]]+)\]", s)`: the nonempty bracket-delimited chunks,
left to right, non-overlapping. -/
def bracketDepsAux : Nat → List Char → List (List Char)
  | 0, _ => []
  | _ + 1, [] => []
  | fuel + 1, c :: rest =>
    if c = '[' then
      let content := rest.takeWhile (fun x => x ≠ ']')
      let after := rest.drop content.length
      if content ≠ [] ∧ after ≠ [] then content :: bracketDepsAux fuel (after.drop 1)
      else bracketDepsAux fuel rest
    else bracketDepsAux fuel rest

/-- `re.findall(r"\[([^\]]+)\]", s)` wrapper. -/
def bracketDeps (s : List Char) : List (List Char) := bracketDepsAux s.length s

/-- The normalization key used for dependencies:
`dep_name.lower().replace(" ", "").replace("-", "")`. -/
def depNormKey (dep : List Char) : List Char :=
  ((dep.map Char.toLower).filter (fun c => c ≠ ' ')).filter (fun c => c ≠ '-')

/-- `"  " * depth`. -/
def indentOf (depth : Nat) : List Char := List.replicate (2 * depth) ' '

/-- `"└─ "` when below the root, else empty. -/
def branchMark (depth : Nat) : List Char := if depth > 0 then chars "└─ " else []

/-- Fuelled body of `DataFieldAnalyzer._generate_context_tree`.  The source
recursion is bounded by its own depth guard: a call at `current_depth > 5`
returns at once, and every recursive call increases the depth by one, so
from depth `d` at most `max 1 (7 - d)` nested calls happen, and the fuel
`7` of the wrapper `generate_context_tree` is never exhausted (this
reproduces the termination argument the claim asks for). -/
def genCtxAux (field_map : List (List Char × FieldInfo))
    (id_to_human : List (List Char × List Char))
    (filters : List FilterElem) (workbook_xml : List Char) :
    Nat → List Char → Nat → List (List Char) → List (List Char)
  | 0, _, _, _ => []
  | fuel + 1, norm_key, current_depth, visited =>
    let indent := indentOf current_depth
    let mark := branchMark current_depth
    if current_depth > 5 then [indent ++ mark ++ chars "(Max depth reached)"]
    else if visited.contains norm_key then
      [indent ++ mark ++ chars "(Recursive reference loop)"]
    else
      match lookupA field_map norm_key with
      | none => [indent ++ mark ++ chars "Field not found in metadata"]
      | some info =>
        if info.is_calc then
          let human_formula := translate_formula info.formula id_to_human
          let header := indent ++ mark ++ chars "FIELD: [" ++ info.raw_name ++
            chars "] (Calculation)"
          let formula_line := indent ++ chars "   Formula: " ++ human_formula
          let unique_deps := sortLex (dedupL (bracketDeps human_formula))
          header :: formula_line ::
            concatMapL
              (fun dep =>
                if depNormKey dep ≠ norm_key then
                  genCtxAux field_map id_to_human filters workbook_xml fuel
                    (depNormKey dep) (current_depth + 1) (norm_key :: visited)
                else [])
              unique_deps
        else
          let header := indent ++ mark ++ chars "FIELD: [" ++ info.raw_name ++
            chars "] (Native " ++ info.datatype ++ chars ")"
          if info.role = chars "measure" ∧
              (info.datatype = chars "integer" ∨ info.datatype = chars "real") then
            match scrape_range_limits info.raw_name filters with
            | some range_info => [header, indent ++ chars "   Filter Range Found: " ++ range_info]
            | none =>
              [header, indent ++
                chars "   Values: (Numeric Measure - No hardcoded filter range found)"]
          else
            let vals := scrape_filter_values info.raw_name workbook_xml
            if vals ≠ [] then
              let preview := joinSep (chars ", ") (vals.take 15) ++
                (if vals.length > 15 then chars "..." else [])
              [header, indent ++ chars "   Categories: " ++ preview]
            else [header, indent ++ chars "   Values: (No explicit filter values)"]

/-- `DataFieldAnalyzer._generate_context_tree`. -/
def generate_context_tree (field_map : List (List Char × FieldInfo))
    (id_to_human : List (List Char × List Char))
    (filters : List FilterElem) (workbook_xml : List Char)
    (norm_key : List Char) (current_depth : Nat) (visited : List (List Char)) :
    List (List Char) :=
  genCtxAux field_map id_to_human filters workbook_xml 7 norm_key current_depth visited

/-! ### `ChatGPTService.extract_field_names` (chatgpt_service.py lines 171-243)

The JSON parse of the source is external input decoding; the three accepted
shapes are modelled as a tagged variant.  A structured item is either a
plain string or an object with a `field` and an optional `display_name`
(absent or JSON-null both become `none` here, matching `item.get`). -/

/-- A list element of a structured classification response. -/
inductive GPTItem where
  | plain (s : List Char)
  | obj (field : List Char) (display_name : Option (List Char))
deriving DecidableEq, Repr

/-- A classification response: the structured object shape, the flat list
shape, or anything else (handled as comma-separated text, which is also the
fallback when JSON decoding fails). -/
inductive GPTResponse where
  | dict (vertical horizontal dimensions measures : List GPTItem)
  | flat (items : List GPTItem)
  | other (text : List Char)
deriving DecidableEq, Repr

/-- A collected raw item `{"field": …, "display_name": …}`. -/
structure RawItem where
  field : List Char
  display_name : Option (List Char)
deriving DecidableEq, Repr

/-- `_parse_display_name`: `None`, `"null"`, `"none"` and the empty string
(after stripping, case-insensitively) all mean "no display name". -/
def parseDisplayName (value : Option (List Char)) : Option (List Char) :=
  match value with
  | none => none
  | some v =>
    let s := pyStrip v
    if s.map Char.toLower = chars "null" ∨ s.map Char.toLower = chars "none" ∨ s = [] then
      none
    else some s

/-- Collect the raw items of one section (list shape shared by all four
dict keys and the flat shape). -/
def collectSection (items : List GPTItem) : List RawItem :=
  concatMapL
    (fun it =>
      match it with
      | GPTItem.obj f d => [⟨pyStrip f, parseDisplayName d⟩]
      | GPTItem.plain s => if pyStrip s ≠ [] then [⟨pyStrip s, none⟩] else [])
    items

/-- Split on commas (Python `str.split(',')`). -/
def splitCommaAux : List Char → List Char → List (List Char)
  | [], cur => [cur.reverse]
  | c :: rest, cur =>
    if c = ',' then cur.reverse :: splitCommaAux rest []
    else splitCommaAux rest (c :: cur)

/-- Python `s.split(',')`. -/
def splitComma (s : List Char) : List (List Char) := splitCommaAux s []

/-- The raw-item collection phase of `extract_field_names`. -/
def collectRawItems : GPTResponse → List RawItem
  | GPTResponse.dict v h d m =>
    collectSection v ++ collectSection h ++ collectSection d ++ collectSection m
  | GPTResponse.flat items => collectSection items
  | GPTResponse.other text =>
    concatMapL
      (fun f => if pyStrip f ≠ [] then [(⟨pyStrip f, none⟩ : RawItem)] else [])
      (splitComma text)

/-- The deduplication key of the reconciler: lowercase with spaces, hyphens
and underscores removed. -/
def fieldNormKey (f : List Char) : List Char :=
  (((f.map Char.toLower).filter (fun c => c ≠ ' ')).filter (fun c => c ≠ '-')).filter
    (fun c => c ≠ Char.ofNat 95)

/-- Is the raw item kept at all?  Empty fields and the literal `none`
(case-insensitively) are skipped. -/
def rawItemValid (it : RawItem) : Bool :=
  it.field ≠ [] && it.field.map Char.toLower ≠ chars "none"

/-- The deduplication phase: a fold over the raw items keeping the first
occurrence per normalized key (the Python `seen` dict holds insertion
order, so its `values()` are exactly the kept items in encounter order). -/
def dedupRawItems (items : List RawItem) : List RawItem :=
  (items.foldl
    (fun st it =>
      if rawItemValid it ∧ !(st.2.contains (fieldNormKey it.field)) then
        (st.1 ++ [it], st.2 ++ [fieldNormKey it.field])
      else st)
    (([], []) : List RawItem × List (List Char))).1

/-- `ChatGPTService.extract_field_names`: the resulting ordered field-name
list and the display-name map (an association list, as the Python dict). -/
def extract_field_names (resp : GPTResponse) :
    List (List Char) × List (List Char × Option (List Char)) :=
  let final_items := dedupRawItems (collectRawItems resp)
  (final_items.map (fun it => it.field),
   final_items.map (fun it => (it.field, it.display_name)))

/-! ### `RelationshipService` edge maps (relationship_service.py lines 30-142) -/

/-- A relationship edge (`{'title': …, 'url': …}`). -/
structure RelEdge where
  title : List Char
  url : List Char
deriving DecidableEq, Repr

/-- The data `build_field_to_charts_map` / `build_chart_to_articles_map`
read from one processed chart result. -/
structure ChartResult where
  status : List Char
  chart_title : List Char
  chart_intercom_url : List Char
  field_names : List (List Char)
deriving DecidableEq, Repr

/-- A ledger response (`get_related_charts_for_field` /
`get_related_articles_for_chart`): a status flag plus previously recorded
edges.  The Sheets service is an external collaborator, so it enters as an
oracle function from keys to responses. -/
structure LedgerResp where
  success : Bool
  edges : List RelEdge
deriving DecidableEq, Repr

/-- Python-dict write: replace the value in place if the key exists
(keeping its position), else append the new key at the end. -/
def setA {β : Type} (m : List (List Char × β)) (k : List Char) (v : β) :
    List (List Char × β) :=
  match m with
  | [] => [(k, v)]
  | p :: rest => if p.1 = k then (k, v) :: rest else p :: setA rest k v

/-- Append an edge unless its title is already present (the
`existing_titles` check of the source). -/
def dedupAppendEdge (cur : List RelEdge) (e : RelEdge) : List RelEdge :=
  if (cur.map (fun c => c.title)).contains e.title then cur else cur ++ [e]

/-- Merge previously recorded ledger edges into the current entry,
deduplicating by title as the edges arrive (the running `existing_titles`
set of the source). -/
def mergeLedgerEdges (cur new : List RelEdge) : List RelEdge :=
  new.foldl dedupAppendEdge cur

/-- Phase 1 of `build_field_to_charts_map`: walk the processed charts; for
every success with a nonempty Intercom URL, add a `{chart_title, chart_url}`
edge under each of its fields, deduplicating by chart title. -/
def fieldChartsPhase1 (processed_charts : List ChartResult) :
    List (List Char × List RelEdge) :=
  processed_charts.foldl
    (fun m cr =>
      if cr.status = chars "success" then
        if cr.chart_intercom_url = [] then m
        else
          cr.field_names.foldl
            (fun m f =>
              let cur := (lookupA m f).getD []
              setA m f (dedupAppendEdge cur ⟨cr.chart_title, cr.chart_intercom_url⟩))
            m
      else m)
    []

/-- `RelationshipService.build_field_to_charts_map` (lines 30-87): phase 1
plus, for every key assembled, a ledger merge when the ledger query
succeeds. -/
def build_field_to_charts_map (processed_charts : List ChartResult)
    (ledger : List Char → LedgerResp) : List (List Char × List RelEdge) :=
  (fieldChartsPhase1 processed_charts).map
    (fun p =>
      let resp := ledger p.1
      (p.1, if resp.success then mergeLedgerEdges p.2 resp.edges else p.2))

/-- The append step of `build_chart_to_articles_map`: add the article
record unless the very same `{'title','url'}` record is already present
(`if article_info not in articles_map[chart_title]`). -/
def appendEdgeOnce (cur : List RelEdge) (info : RelEdge) : List RelEdge :=
  if cur.contains info then cur else cur ++ [info]

/-- Phase 1 of `build_chart_to_articles_map`: under each successful chart's
title, add the current article (the membership test of the source compares
whole `{'title','url'}` records). -/
def chartArticlesPhase1 (processed_charts : List ChartResult)
    (article_title article_url : List Char) : List (List Char × List RelEdge) :=
  processed_charts.foldl
    (fun m cr =>
      if cr.status = chars "success" then
        setA m cr.chart_title
          (appendEdgeOnce ((lookupA m cr.chart_title).getD [])
            ⟨article_title, article_url⟩)
      else m)
    []

/-- `RelationshipService.build_chart_to_articles_map` (lines 89-142). -/
def build_chart_to_articles_map (processed_charts : List ChartResult)
    (article_title article_url : List Char) (ledger : List Char → LedgerResp) :
    List (List Char × List RelEdge) :=
  (chartArticlesPhase1 processed_charts article_title article_url).map
    (fun p =>
      let resp := ledger p.1
      (p.1, if resp.success then mergeLedgerEdges p.2 resp.edges else p.2))

/-! ### `RelationshipService` propagation (relationship_service.py lines 144-388)

The remote Intercom publisher and the Sheets ledger are external
collaborators: `intercom_update` is the success verdict of
`IntercomService.update_article` for a given article id and body, and the
ledger writes performed by `GoogleSheetsService.log_processed_item` are
recorded in an output journal rather than sent anywhere.  The
`fields_to_update` dict assembled in lines 165-213 (from per-chart results
and Sheets lookups) enters `update_data_fields_loop` as the already
collected association list, which is exactly what the update loop of
lines 216-248 iterates over. -/

/-- The per-field data collected into `fields_to_update`. -/
structure FieldUpdateInfo where
  human_name : List Char
  article_id : List Char
  old_html : List Char
  intercom_url : List Char
deriving DecidableEq, Repr

/-- One ledger write performed by `log_processed_item`. -/
structure LogEntry where
  original_name : List Char
  human_name : List Char
  intercom_url : List Char
  intercom_id : List Char
  html : List Char
deriving DecidableEq, Repr

/-- Result counters of a propagation operation, together with the journal
of ledger writes (in execution order). -/
structure PropResult where
  updated : Nat
  failed : Nat
  skipped : Nat
  logs : List LogEntry
deriving DecidableEq, Repr

/-- The update loop of `update_data_fields_with_relationships`
(lines 216-248): for every collected field with at least one related
chart, a known article id and prior HTML, inject the Related Charts
section, push to Intercom, and only on success write the ledger row. -/
def update_data_fields_body (field_to_charts_map : List (List Char × List RelEdge))
    (intercom_update : List Char → List Char → Bool) (acc : PropResult)
    (p : List Char × FieldUpdateInfo) : PropResult :=
  let field_name := p.1
  let info := p.2
  let related_charts := (lookupA field_to_charts_map field_name).getD []
  if related_charts ≠ [] ∧ info.article_id ≠ [] ∧ info.old_html ≠ [] then
    let updated_html := inject_related_charts_to_field_html info.old_html
      (related_charts.map (fun c => c.title)) (related_charts.map (fun c => c.url))
    if intercom_update info.article_id updated_html then
      { acc with
        updated := acc.updated + 1
        logs := acc.logs ++
          [⟨field_name, info.human_name, info.intercom_url, info.article_id,
            updated_html⟩] }
    else { acc with failed := acc.failed + 1 }
  else acc

/-- The update loop itself: fold the per-field body over the collected
fields starting from zeroed counters. -/
def update_data_fields_loop (field_to_charts_map : List (List Char × List RelEdge))
    (fields_to_update : List (List Char × FieldUpdateInfo))
    (intercom_update : List Char → List Char → Bool) : PropResult :=
  fields_to_update.foldl
    (update_data_fields_body field_to_charts_map intercom_update)
    ⟨0, 0, 0, []⟩

/-- The data `update_charts_with_relationships` reads from one element of
`processed_charts ++ skipped_charts`.  `chart_name` is the optional
`'chart_name'` key used for skipped results (`none` models an absent key;
the `or` of the source falls through on an empty string as well). -/
structure ChartUpdInput where
  status : List Char
  nested_title : List Char
  chart_name : Option (List Char)
  original_chart_name : Option (List Char)
  chart_intercom_url : List Char
  chart_article_id : List Char
  chart_html : List Char
  intercom_url : List Char
deriving DecidableEq, Repr

/-- A `lookup_article_by_title` response (Sheets oracle). -/
structure LookupResp where
  found : Bool
  intercom_id : List Char
  html : List Char
deriving DecidableEq, Repr

/-- `RelationshipService.update_charts_with_relationships` (lines 258-388)
over the combined `processed ++ skipped` list: resolve each chart's title,
id and HTML (via the Sheets lookup oracle for skipped ones), skip silently
when anything needed is missing or there are no related articles, otherwise
inject the Related Articles section, push to Intercom, and only on success
write the ledger row. -/
def update_charts_body (chart_to_articles_map : List (List Char × List RelEdge))
    (lookup : List Char → LookupResp)
    (intercom_update : List Char → List Char → Bool) (acc : PropResult)
    (cr : ChartUpdInput) : PropResult :=
  let is_success := cr.status = chars "success"
      let is_skipped := cr.status = chars "skipped"
      if ¬ (is_success ∨ is_skipped) then acc
      else
        let chart_title :=
          if is_success then cr.nested_title
          else match cr.chart_name with
            | some n => if n ≠ [] then n else cr.nested_title
            | none => cr.nested_title
        if ¬ is_success ∧ chart_title = [] then
          { acc with skipped := acc.skipped + 1 }
        else
          let lk := lookup chart_title
          if ¬ is_success ∧ !lk.found then
            { acc with skipped := acc.skipped + 1 }
          else
            let original_chart_name := cr.original_chart_name.getD chart_title
            let chart_url := if is_success then cr.chart_intercom_url else cr.intercom_url
            let chart_id := if is_success then cr.chart_article_id else lk.intercom_id
            let chart_html := if is_success then cr.chart_html else lk.html
            if chart_html = [] ∨ chart_id = [] then
              { acc with skipped := acc.skipped + 1 }
            else
              let related_articles := (lookupA chart_to_articles_map chart_title).getD []
              if related_articles = [] then
                { acc with skipped := acc.skipped + 1 }
              else
                let updated_html := inject_related_articles_to_chart_html chart_html
                  (related_articles.map (fun a => a.title))
                  (related_articles.map (fun a => a.url))
                if intercom_update chart_id updated_html then
                  { acc with
                    updated := acc.updated + 1
                    logs := acc.logs ++
                      [⟨original_chart_name, chart_title, chart_url, chart_id,
                        updated_html⟩] }
                else { acc with failed := acc.failed + 1 }

/-- The chart update loop itself: fold the per-chart body over the combined
processed-plus-skipped list starting from zeroed counters. -/
def update_charts_loop (chart_to_articles_map : List (List Char × List RelEdge))
    (all_charts : List ChartUpdInput)
    (lookup : List Char → LookupResp)
    (intercom_update : List Char → List Char → Bool) : PropResult :=
  all_charts.foldl
    (update_charts_body chart_to_articles_map lookup intercom_update)
    ⟨0, 0, 0, []⟩

/-! ### Scenario constants and specification-side definitions

Everything below is input data for concrete scenarios from the testable
properties, or definitions written from the specification's words, used to
state the claims (each marked as such). -/

/-- The cyclic registry of the termination property: calculated `A` depends
on `B` and calculated `B` depends on `A` (keys are the normalized names). -/
def cycFieldMap : List (List Char × FieldInfo) :=
  [(chars "a", ⟨chars "A", chars "dimension", chars "string", true, chars "[B]"⟩),
   (chars "b", ⟨chars "B", chars "dimension", chars "string", true, chars "[A]"⟩)]

/-- Identity translation table for the cyclic registry, as
`_build_knowledge_base` would produce it from columns named `[A]`/`[B]`
with captions `A`/`B`. -/
def cycIdToHuman : List (List Char × List Char) :=
  [(chars "[A]", chars "[A]"), (chars "A", chars "A"),
   (chars "[B]", chars "[B]"), (chars "B", chars "B")]

/-- The end-to-end scenario registry: calculated `Margin` over native
numeric measures `Revenue` and `Cost`. -/
def marginFieldMap : List (List Char × FieldInfo) :=
  [(chars "margin",
    ⟨chars "Margin", chars "measure", chars "real", true, chars "([Revenue]-[Cost])/[Revenue]"⟩),
   (chars "revenue", ⟨chars "Revenue", chars "measure", chars "real", false, []⟩),
   (chars "cost", ⟨chars "Cost", chars "measure", chars "real", false, []⟩)]

/-- Identity translation table for the end-to-end scenario
(`Revenue → Revenue`, `Cost → Cost`). -/
def marginIdToHuman : List (List Char × List Char) :=
  [(chars "[Revenue]", chars "[Revenue]"), (chars "Revenue", chars "Revenue"),
   (chars "[Cost]", chars "[Cost]"), (chars "Cost", chars "Cost"),
   (chars "[Margin]", chars "[Margin]"), (chars "Margin", chars "Margin")]

/-- The context block generated for `Margin` in the end-to-end scenario
(no filters, empty raw document). -/
def marginContext : List (List Char) :=
  generate_context_tree marginFieldMap marginIdToHuman [] [] (chars "margin") 0 []

/-- Modelled from the spec (§8, relationship merge): the titles the current
run itself contributes under field key `k` — one per successfully processed
chart with a nonempty Intercom URL that uses the field. -/
def currentFieldChartTitles (processed_charts : List ChartResult) (k : List Char) :
    List (List Char) :=
  (processed_charts.filter
    (fun cr => cr.status == chars "success" && cr.chart_intercom_url != [] &&
      cr.field_names.contains k)).map (fun cr => cr.chart_title)

/-- Modelled from the spec: the edges the current run itself contributes
under field key `k` (one `{chart_title, chart_url}` edge per contributing
chart, before deduplication). -/
def currentFieldEdges (processed_charts : List ChartResult) (k : List Char) :
    List RelEdge :=
  (processed_charts.filter
    (fun cr => cr.status == chars "success" && cr.chart_intercom_url != [] &&
      cr.field_names.contains k)).map
    (fun cr => (⟨cr.chart_title, cr.chart_intercom_url⟩ : RelEdge))

/-- Modelled from the spec: does the current run contain a successfully
processed chart titled `k` (the condition under which the current article
is an edge of chart `k`)? -/
def currentRunHasChart (processed_charts : List ChartResult) (k : List Char) : Bool :=
  processed_charts.any (fun cr => cr.status == chars "success" && cr.chart_title == k)

/-- Modelled from the spec (§4.4): the valid raw field mentions, in
encounter order, before deduplication (used to state first-occurrence
preservation). -/
def validRawFields (resp : GPTResponse) : List (List Char) :=
  ((collectRawItems resp).filter rawItemValid).map (fun it => it.field)

/-- Eligibility of a collected field for the propagation update: at least
one related chart, a known article id, and prior HTML (the source's
`if related_charts and field_info['article_id'] and field_info['old_html']`). -/
def fieldEligible (field_to_charts_map : List (List Char × List RelEdge))
    (p : List Char × FieldUpdateInfo) : Bool :=
  !((lookupA field_to_charts_map p.1).getD []).isEmpty &&
  !p.2.article_id.isEmpty && !p.2.old_html.isEmpty

/-- The HTML the propagation pushes for a field. -/
def fieldNewHtml (field_to_charts_map : List (List Char × List RelEdge))
    (p : List Char × FieldUpdateInfo) : List Char :=
  let related := (lookupA field_to_charts_map p.1).getD []
  inject_related_charts_to_field_html p.2.old_html
    (related.map (fun c => c.title)) (related.map (fun c => c.url))

/-- The ledger row the propagation writes for a field on success. -/
def fieldLogEntry (field_to_charts_map : List (List Char × List RelEdge))
    (p : List Char × FieldUpdateInfo) : LogEntry :=
  ⟨p.1, p.2.human_name, p.2.intercom_url, p.2.article_id,
   fieldNewHtml field_to_charts_map p⟩

/-- Resolution of one chart inside `update_charts_with_relationships`:
`some (title, original, url, id, html)` when the loop reaches the
related-articles stage, `none` when the chart is skipped before it. -/
def chartData (lookup : List Char → LookupResp) (cr : ChartUpdInput) :
    Option (List Char × List Char × List Char × List Char × List Char) :=
  if cr.status == chars "success" then
    if cr.chart_html = [] ∨ cr.chart_article_id = [] then none
    else some (cr.nested_title, cr.original_chart_name.getD cr.nested_title,
      cr.chart_intercom_url, cr.chart_article_id, cr.chart_html)
  else if cr.status == chars "skipped" then
    let t := match cr.chart_name with
      | some n => if n ≠ [] then n else cr.nested_title
      | none => cr.nested_title
    if t = [] then none
    else
      let lk := lookup t
      if !lk.found then none
      else if lk.html = [] ∨ lk.intercom_id = [] then none
      else some (t, cr.original_chart_name.getD t, cr.intercom_url, lk.intercom_id, lk.html)
  else none

/-- The outcome of one chart in the propagation loop: `none` when skipped,
otherwise the Intercom verdict paired with the ledger row that a success
would write. -/
def chartOutcome (chart_to_articles_map : List (List Char × List RelEdge))
    (lookup : List Char → LookupResp)
    (intercom_update : List Char → List Char → Bool) (cr : ChartUpdInput) :
    Option (Bool × LogEntry) :=
  match chartData lookup cr with
  | none => none
  | some (t, orig, url, id, html) =>
    let related := (lookupA chart_to_articles_map t).getD []
    if related = [] then none
    else
      let nh := inject_related_articles_to_chart_html html
        (related.map (fun a => a.title)) (related.map (fun a => a.url))
      some (intercom_update id nh, ⟨orig, t, url, id, nh⟩)

/-- Concrete run for the edge-map witness: the same successful chart `C`
(URL `u`, using field `f`) reported twice. -/
def pcsW : List ChartResult :=
  [⟨chars "success", chars "C", chars "u", [chars "f"]⟩,
   ⟨chars "success", chars "C", chars "u", [chars "f"]⟩]

/-- Field-side ledger oracle for the edge-map witness: every query succeeds
and already records chart `C` (under an older URL) plus chart `Y`. -/
def fieldLedgerW : List Char → LedgerResp :=
  fun _ => ⟨true, [⟨chars "C", chars "lu"⟩, ⟨chars "Y", chars "yu"⟩]⟩

/-- Chart-side ledger oracle for the edge-map witness: every query succeeds
and already records article `Y`. -/
def chartLedgerW : List Char → LedgerResp :=
  fun _ => ⟨true, [⟨chars "Y", chars "yu"⟩]⟩

/-! ### Sorting lemmas for the translation order (C6) -/

/-- Members of an insertion are the inserted element or old members. -/
theorem mem_insertLenDesc (x y : List Char × List Char) (l : List (List Char × List Char))
    (h : y ∈ insertLenDesc x l) : y = x ∨ y ∈ l := by
  induction l with
  | nil => simpa [insertLenDesc] using h
  | cons z zs ih =>
    by_cases hc : z.1.length ≤ x.1.length
    · rw [insertLenDesc, if_pos hc] at h
      rw [List.mem_cons] at h
      rcases h with h1 | h1
      · exact Or.inl h1
      · exact Or.inr h1
    · rw [insertLenDesc, if_neg hc] at h
      rw [List.mem_cons] at h
      rcases h with h1 | h1
      · exact Or.inr (List.mem_cons.mpr (Or.inl h1))
      · rcases ih h1 with h2 | h2
        · exact Or.inl h2
        · exact Or.inr (List.mem_cons.mpr (Or.inr h2))

/-- Insertion preserves the non-increasing-length invariant. -/
theorem pairwise_insertLenDesc (x : List Char × List Char) (l : List (List Char × List Char))
    (h : l.Pairwise (fun p q => q.1.length ≤ p.1.length)) :
    (insertLenDesc x l).Pairwise (fun p q => q.1.length ≤ p.1.length) := by
  induction l with
  | nil => simp [insertLenDesc]
  | cons z zs ih =>
    rcases List.pairwise_cons.mp h with ⟨hz, hzs⟩
    by_cases hc : z.1.length ≤ x.1.length
    · rw [insertLenDesc, if_pos hc]
      refine List.pairwise_cons.mpr ⟨?_, h⟩
      intro q hq
      rw [List.mem_cons] at hq
      rcases hq with hq | hq
      · subst hq; simpa using hc
      · exact le_trans (hz q hq) hc
    · rw [insertLenDesc, if_neg hc]
      refine List.pairwise_cons.mpr ⟨?_, ih hzs⟩
      intro q hq
      rcases mem_insertLenDesc x q zs hq with hq | hq
      · subst hq; omega
      · exact hz q hq

/-- The translation table is processed in non-increasing key length. -/
theorem sortLenDesc_pairwise (table : List (List Char × List Char)) :
    (sortLenDesc table).Pairwise (fun p q => q.1.length ≤ p.1.length) := by
  induction table with
  | nil => simp [sortLenDesc]
  | cons x xs ih => exact pairwise_insertLenDesc x (sortLenDesc xs) ih

/-- Insertion is a permutation of consing. -/
theorem insertLenDesc_perm (x : List Char × List Char) (l : List (List Char × List Char)) :
    (insertLenDesc x l).Perm (x :: l) := by
  induction l with
  | nil => simp [insertLenDesc]
  | cons z zs ih =>
    by_cases hc : z.1.length ≤ x.1.length
    · rw [insertLenDesc, if_pos hc]
    · rw [insertLenDesc, if_neg hc]
      exact (ih.cons z).trans (List.Perm.swap x z zs)

/-- Sorting scans the whole table: it is a permutation of it. -/
theorem sortLenDesc_perm (table : List (List Char × List Char)) :
    (sortLenDesc table).Perm table := by
  induction table with
  | nil => simp [sortLenDesc]
  | cons x xs ih => exact (insertLenDesc_perm x (sortLenDesc xs)).trans (ih.cons x)

/-! ### Lemmas for the range scrape (C10) -/

/-- Characterisation of the candidate-collecting fold. -/
theorem foldl_rangeCollect (p : FilterElem → Bool) (g : FilterElem → List Char) :
    ∀ (l : List FilterElem) (acc : List (List Char)),
      l.foldl (fun acc f => if p f then acc ++ [g f] else acc) acc =
        acc ++ (l.filter p).map g := by
  intro l
  induction l with
  | nil => intro acc; simp
  | cons f rest ih =>
    intro acc
    by_cases hp : p f
    · simp [List.foldl_cons, hp, ih]
    · simp [List.foldl_cons, hp, ih]

/-- The head of the filtered image is the image of the first match. -/
theorem head?_filter_map_eq_find? (p : FilterElem → Bool) (g : FilterElem → List Char) :
    ∀ l : List FilterElem, ((l.filter p).map g).head? = (l.find? p).map g := by
  intro l
  induction l with
  | nil => simp
  | cons f rest ih =>
    by_cases hp : p f
    · simp [List.filter_cons, hp, List.find?_cons, ih]
    · simp [List.filter_cons, hp, List.find?_cons, ih]

/-- C10: `_scrape_range_limits` reports only the first matching filter in
document order that carries a min or max bound, formatted by
`rangeCandidate` (`-Inf`/`Inf` standing for absent bounds), and `none`
when no matching filter carries a bound (`find?` is `none` exactly then). -/
theorem scrape_range_limits_first_match (name : List Char) (filters : List FilterElem) :
    scrape_range_limits name filters =
      (filters.find? (fun f =>
        filterMatches ((name.filter (fun c => c ≠ '[')).filter (fun c => c ≠ ']')) f &&
        filterCarries f)).map
        (fun f => rangeCandidate (effBound f.minAttr f.minChild)
          (effBound f.maxAttr f.maxChild)) := by
  simp only [scrape_range_limits]
  rw [show (fun (acc : List (List Char)) f =>
        if filterMatches ((name.filter (fun c => c ≠ '[')).filter (fun c => c ≠ ']')) f ∧
            filterCarries f then
          acc ++ [rangeCandidate (effBound f.minAttr f.minChild)
            (effBound f.maxAttr f.maxChild)]
        else acc) =
      (fun acc f =>
        if (filterMatches ((name.filter (fun c => c ≠ '[')).filter (fun c => c ≠ ']')) f &&
            filterCarries f) then
          acc ++ [rangeCandidate (effBound f.minAttr f.minChild)
            (effBound f.maxAttr f.maxChild)]
        else acc) from by
    funext acc f
    by_cases h1 : filterMatches ((name.filter (fun c => c ≠ '[')).filter (fun c => c ≠ ']')) f <;>
      by_cases h2 : filterCarries f <;> simp [h1, h2]]
  rw [foldl_rangeCollect]
  simp only [List.nil_append]
  rw [head?_filter_map_eq_find?]

/-- C6: `_translate_formula` processes translation identifiers in
non-increasing key length (so a strictly longer identifier such as `ID10`
is always handled before a shorter one such as `ID1`), the processed list
is a permutation of the whole table, on the `ID1`/`ID10` table the order is
exactly `ID10` first, and the substitution of `ID10` is not corrupted by
`ID1`. -/
theorem translate_formula_longest_first :
    (∀ table : List (List Char × List Char),
      (sortLenDesc table).Pairwise (fun p q => q.1.length ≤ p.1.length)) ∧
    (∀ table : List (List Char × List Char), (sortLenDesc table).Perm table) ∧
    sortLenDesc [(chars "ID1", chars "[One]"), (chars "ID10", chars "[Ten]")] =
      [(chars "ID10", chars "[Ten]"), (chars "ID1", chars "[One]")] ∧
    translate_formula (chars "ID10 + ID1")
      [(chars "ID1", chars "[One]"), (chars "ID10", chars "[Ten]")] =
      chars "[Ten] + [One]" := by
  refine ⟨sortLenDesc_pairwise, sortLenDesc_perm, by decide, by decide⟩

/-- C7 counterexample: the guard of `clean_tableau_field_name` compares
against the exact literal `"None"`, so the lowercase input `"none"` (and
uppercase `"NONE"`) pass through the pipeline unchanged instead of
yielding `"None"`. -/
theorem clean_none_casing_cex :
    clean_tableau_field_name (chars "none") = chars "none" ∧
    clean_tableau_field_name (chars "NONE") = chars "NONE" ∧
    clean_tableau_field_name (chars "none") ≠ chars "None" := by
  exact ⟨by decide, by decide, by decide⟩

/-- C7 (amended): `clean_tableau_field_name` returns the literal `"None"`
for the empty string and for the exact input `"None"`; other casings of
`none` are not mapped to `"None"`. -/
theorem clean_empty_or_None_literal (s : List Char)
    (h : s = [] ∨ s = chars "None") : clean_tableau_field_name s = chars "None" := by
  rcases h with h | h <;> subst h <;> decide

/-- Witness for the amended C7 theorem at both concrete inputs. -/
theorem clean_empty_or_None_literal_witness :
    clean_tableau_field_name [] = chars "None" ∧
    clean_tableau_field_name (chars "None") = chars "None" :=
  ⟨clean_empty_or_None_literal [] (Or.inl rfl),
   clean_empty_or_None_literal (chars "None") (Or.inr rfl)⟩

/-- C8 counterexample: cleaning `"[x:y]"` yields `"x:y"` (the brackets are
removed last), and cleaning that output again strips the new leading
`x:` prefix, so the pipeline is not idempotent. -/
theorem clean_not_idempotent_cex :
    clean_tableau_field_name (chars "[x:y]") = chars "x:y" ∧
    clean_tableau_field_name (clean_tableau_field_name (chars "[x:y]")) ≠
      clean_tableau_field_name (chars "[x:y]") := by
  exact ⟨by decide, by decide⟩

/-- C4: on the cyclic registry (`A` depends on `B`, `B` on `A`) generation
rooted at `A` terminates — the Lean embedding is total, with the same
measure `6 - depth` that bounds the source recursion — well inside the
depth bound (the cycle guard fires at depth 2), and the output contains
the cycle-marker line. -/
theorem context_tree_cycle_guard :
    generate_context_tree cycFieldMap cycIdToHuman [] [] (chars "a") 0 [] =
      [chars "FIELD: [A] (Calculation)",
       chars "   Formula: [B]",
       chars "  └─ FIELD: [B] (Calculation)",
       chars "     Formula: [A]",
       chars "    └─ (Recursive reference loop)"] ∧
    (chars "    └─ (Recursive reference loop)") ∈
      generate_context_tree cycFieldMap cycIdToHuman [] [] (chars "a") 0 [] := by
  exact ⟨by decide, by decide⟩

/-- C5 counterexample: in the end-to-end `Margin` scenario the two nested
dependency blocks appear with `Cost` before `Revenue` (the sort order of
the dependency names), not `Revenue` before `Cost` as the claim states. -/
theorem margin_context_block_order_cex :
    marginContext =
      [chars "FIELD: [Margin] (Calculation)",
       chars "   Formula: ([Revenue]-[Cost])/[Revenue]",
       chars "  └─ FIELD: [Cost] (Native real)",
       chars "     Values: (Numeric Measure - No hardcoded filter range found)",
       chars "  └─ FIELD: [Revenue] (Native real)",
       chars "     Values: (Numeric Measure - No hardcoded filter range found)"] ∧
    marginContext ≠
      [chars "FIELD: [Margin] (Calculation)",
       chars "   Formula: ([Revenue]-[Cost])/[Revenue]",
       chars "  └─ FIELD: [Revenue] (Native real)",
       chars "     Values: (Numeric Measure - No hardcoded filter range found)",
       chars "  └─ FIELD: [Cost] (Native real)",
       chars "     Values: (Numeric Measure - No hardcoded filter range found)"] := by
  exact ⟨by decide, by decide⟩

/-! ### String-scanner lemmas (C2) -/

/-- A pattern with a distinct head is not a prefix. -/
theorem isPrefixOf_false_of_head_ne (c0 c : Char) (pt rest : List Char) (h : c ≠ c0) :
    (c0 :: pt).isPrefixOf (c :: rest) = false := by
  simp only [List.isPrefixOf, Bool.and_eq_false_imp, beq_eq_false_iff_ne, ne_eq]
  by_cases hc : c0 = c
  · exact absurd hc.symm h
  · simp [List.isPrefixOf, hc]

/-- A list is a (boolean) prefix of itself followed by anything. -/
theorem isPrefixOf_append_self (a b : List Char) : a.isPrefixOf (a ++ b) = true := by
  rw [List.isPrefixOf_iff_prefix]
  exact List.prefix_append a b

/-- A nonempty pattern occurring in the middle is found by `isSubstr`. -/
theorem isSubstr_middle (c0 : Char) (pt : List Char) :
    ∀ (a b : List Char), isSubstr (c0 :: pt) (a ++ ((c0 :: pt) ++ b)) = true := by
  intro a
  induction a with
  | nil =>
    intro b
    rw [List.nil_append, show (c0 :: pt) ++ b = c0 :: (pt ++ b) from rfl, isSubstr]
    have h1 : (c0 :: pt).isPrefixOf (c0 :: (pt ++ b)) = true := isPrefixOf_append_self (c0 :: pt) b
    rw [h1]
    simp
  | cons x xs ih =>
    intro b
    rw [List.cons_append, isSubstr, ih b]
    simp

/-- `isSubstr` decomposition at a cons. -/
theorem isSubstr_cons_false (pat : List Char) (c : Char) (rest : List Char)
    (h : isSubstr pat (c :: rest) = false) :
    pat.isPrefixOf (c :: rest) = false ∧ isSubstr pat rest = false := by
  rw [isSubstr] at h
  exact ⟨by revert h; cases pat.isPrefixOf (c :: rest) <;> simp, by
    revert h; cases isSubstr pat rest <;> simp⟩

/-- The regex scanner leaves a text without the opening literal unchanged
(any fuel). -/
theorem regexSubSecAux_no_match (L : List Char) (rep : List Char → List Char) :
    ∀ (fuel : Nat) (s : List Char), isSubstr L s = false →
      regexSubSecAux L rep fuel s = s := by
  intro fuel
  induction fuel with
  | zero => intro s _; rfl
  | succ f ih =>
    intro s hs
    cases s with
    | nil => rfl
    | cons c rest =>
      rcases isSubstr_cons_false L c rest hs with ⟨h1, h2⟩
      rw [regexSubSecAux, if_neg (by simp [h1])]
      rw [ih rest h2]

/-- The regex scanner passes over characters that cannot start the
literal. -/
theorem regexSubSecAux_pass (c0 : Char) (pt : List Char) (rep : List Char → List Char) :
    ∀ (p : List Char) (fuel : Nat) (rest : List Char), (∀ c ∈ p, c ≠ c0) →
      regexSubSecAux (c0 :: pt) rep (p.length + fuel) (p ++ rest) =
        p ++ regexSubSecAux (c0 :: pt) rep fuel rest := by
  intro p
  induction p with
  | nil => intro fuel rest _; simp
  | cons c ps ih =>
    intro fuel rest hp
    have harith : (c :: ps).length + fuel = (ps.length + fuel) + 1 := by
      simp [List.length_cons]; omega
    rw [harith, List.cons_append, regexSubSecAux,
      if_neg (by simp [isPrefixOf_false_of_head_ne c0 c pt _ (hp c (by simp))])]
    rw [ih fuel rest (fun x hx => hp x (by simp [hx]))]
    simp

/-- The regex scanner at a match start: replace and continue after the
match. -/
theorem regexSubSecAux_hit (c0 : Char) (pt : List Char) (rep : List Char → List Char)
    (fuel : Nat) (rest : List Char) (k m : Nat)
    (h : findLazyTail rest = some (k, m)) :
    regexSubSecAux (c0 :: pt) rep (fuel + 1) ((c0 :: pt) ++ rest) =
      rep (((c0 :: pt) ++ rest).take ((c0 :: pt).length + k + m)) ++
        regexSubSecAux (c0 :: pt) rep fuel
          (((c0 :: pt) ++ rest).drop ((c0 :: pt).length + k + m)) := by
  rw [show (c0 :: pt) ++ rest = c0 :: (pt ++ rest) from rfl, regexSubSecAux]
  rw [show c0 :: (pt ++ rest) = (c0 :: pt) ++ rest from rfl]
  rw [if_pos (by rw [isPrefixOf_append_self]), List.drop_left, h]

/-- `takeWhile` stops exactly at the end of an all-satisfying run followed
by a failing character. -/
theorem takeWhile_run (f : Char → Bool) (ws : List Char) (x : Char) (r : List Char)
    (h1 : ∀ c ∈ ws, f c = true) (h2 : f x = false) :
    (ws ++ x :: r).takeWhile f = ws := by
  induction ws with
  | nil => simp [List.takeWhile, h2]
  | cons a as ih =>
    simp only [List.cons_append, List.takeWhile]
    rw [h1 a (by simp)]
    simp only [List.append_eq]
    rw [ih (fun c hc => h1 c (by simp [hc]))]

/-- Python `str.replace` with an absent pattern is the identity (any fuel). -/
theorem replaceAllAux_no_match (pat rep : List Char) :
    ∀ (fuel : Nat) (s : List Char), isSubstr pat s = false →
      replaceAllAux pat rep fuel s = s := by
  intro fuel
  induction fuel with
  | zero => intro s _; rfl
  | succ f ih =>
    intro s hs
    cases s with
    | nil => rfl
    | cons c rest =>
      rcases isSubstr_cons_false pat c rest hs with ⟨h1, h2⟩
      rw [replaceAllAux, if_neg (by simp [h1]), ih rest h2]

/-- `str.replace` passes over characters that cannot start the pattern. -/
theorem replaceAllAux_pass (c0 : Char) (pt rep : List Char) :
    ∀ (p : List Char) (fuel : Nat) (rest : List Char), (∀ c ∈ p, c ≠ c0) →
      replaceAllAux (c0 :: pt) rep (p.length + fuel) (p ++ rest) =
        p ++ replaceAllAux (c0 :: pt) rep fuel rest := by
  intro p
  induction p with
  | nil => intro fuel rest _; simp
  | cons c ps ih =>
    intro fuel rest hp
    have harith : (c :: ps).length + fuel = (ps.length + fuel) + 1 := by
      simp [List.length_cons]; omega
    rw [harith, List.cons_append, replaceAllAux,
      if_neg (by simp [isPrefixOf_false_of_head_ne c0 c pt _ (hp c (by simp))])]
    rw [ih fuel rest (fun x hx => hp x (by simp [hx]))]
    simp

/-- `str.replace` at a pattern occurrence: emit the replacement and
continue right after the occurrence. -/
theorem replaceAllAux_hit (c0 : Char) (pt rep : List Char) (fuel : Nat) (rest : List Char) :
    replaceAllAux (c0 :: pt) rep (fuel + 1) ((c0 :: pt) ++ rest) =
      rep ++ replaceAllAux (c0 :: pt) rep fuel rest := by
  rw [show (c0 :: pt) ++ rest = c0 :: (pt ++ rest) from rfl, replaceAllAux]
  rw [if_pos (⟨by simp, by
    rw [show c0 :: (pt ++ rest) = (c0 :: pt) ++ rest from rfl, isPrefixOf_append_self]⟩ :
      (c0 :: pt) ≠ [] ∧ (c0 :: pt).isPrefixOf (c0 :: (pt ++ rest)) = true)]
  rw [show (c0 :: pt).length - 1 = pt.length from by simp, List.drop_left]

/-- The closing part of the section pattern matches exactly at the
`</p>` boundary of a well-formed block tail. -/
theorem findTailEnd_at_boundary (ws s : List Char) (hws : ∀ c ∈ ws, isPySpace c = true) :
    findTailEnd (chars "</p>" ++ (ws ++ (chars "<p>&nbsp;</p>" ++ s))) =
      some (4 + ws.length + 13) := by
  rw [findTailEnd, if_pos (isPrefixOf_append_self (chars "</p>") _)]
  rw [show (4 : Nat) = (chars "</p>").length from rfl, List.drop_left]
  rw [show chars "<p>&nbsp;</p>" ++ s = '<' :: (chars "p>&nbsp;</p>" ++ s) from rfl]
  rw [takeWhile_run isPySpace ws '<' _ hws (by decide)]
  rw [List.drop_left]
  rw [show '<' :: (chars "p>&nbsp;</p>" ++ s) = chars "<p>&nbsp;</p>" ++ s from rfl]
  rw [if_pos (isPrefixOf_append_self (chars "<p>&nbsp;</p>") s)]

/-- `findTailEnd` fails where the head is not `<`. -/
theorem findTailEnd_none_of_head_ne (c : Char) (rest : List Char) (h : c ≠ '<') :
    findTailEnd (c :: rest) = none := by
  rw [findTailEnd,
    if_neg (by
      rw [show chars "</p>" = '<' :: chars "/p>" from rfl]
      simp [isPrefixOf_false_of_head_ne '<' c (chars "/p>") rest h])]

/-- The lazy `.*?` finds the block tail right after the middle part. -/
theorem findLazyTail_boundary (mid ws s : List Char)
    (hmid : ∀ c ∈ mid, c ≠ '<') (hws : ∀ c ∈ ws, isPySpace c = true) :
    findLazyTail (mid ++ (chars "</p>" ++ (ws ++ (chars "<p>&nbsp;</p>" ++ s)))) =
      some (mid.length, 4 + ws.length + 13) := by
  induction mid with
  | nil =>
    rw [List.nil_append]
    rw [show chars "</p>" ++ (ws ++ (chars "<p>&nbsp;</p>" ++ s)) =
      '<' :: (chars "/p>" ++ (ws ++ (chars "<p>&nbsp;</p>" ++ s))) from rfl, findLazyTail]
    rw [show ('<' :: (chars "/p>" ++ (ws ++ (chars "<p>&nbsp;</p>" ++ s)))) =
      chars "</p>" ++ (ws ++ (chars "<p>&nbsp;</p>" ++ s)) from rfl]
    rw [findTailEnd_at_boundary ws s hws]
    simp
  | cons c cs ih =>
    rw [List.cons_append, findLazyTail, findTailEnd_none_of_head_ne c _ (hmid c (by simp))]
    rw [ih (fun x hx => hmid x (by simp [hx]))]
    simp

/-- C2 counterexample: on a document with two `<hr>` dividers and no
existing block, `inject_related_charts_to_field_html` inserts the rendered
block before **every** `<hr>` (Python `str.replace` replaces all
occurrences), not exactly once before the trailing one. -/
theorem inject_related_charts_multi_hr_cex :
    inject_related_charts_to_field_html (chars "<p>A</p><hr><p>B</p><hr>")
      [chars "C"] [chars "u"] =
      chars "<p>A</p>" ++ (renderSection (chars "Related Charts") [chars "C"] [chars "u"] ++
        (chars "<hr><p>B</p>" ++ (renderSection (chars "Related Charts") [chars "C"] [chars "u"] ++
          chars "<hr>"))) ∧
    inject_related_charts_to_field_html (chars "<p>A</p><hr><p>B</p><hr>")
      [chars "C"] [chars "u"] ≠
      chars "<p>A</p><hr><p>B</p>" ++
        (renderSection (chars "Related Charts") [chars "C"] [chars "u"] ++ chars "<hr>") := by
  exact ⟨by decide, by decide⟩

/-- The segment decomposition is never the empty list. -/
theorem splitSepAux_ne_nil (sep : List Char) (fuel : Nat) (s : List Char) :
    splitSepAux sep fuel s ≠ [] := by
  cases fuel with
  | zero => simp [splitSepAux]
  | succ f =>
    cases s with
    | nil => simp [splitSepAux]
    | cons c rest =>
      rw [splitSepAux]
      by_cases h : sep ≠ [] ∧ sep.isPrefixOf (c :: rest)
      · rw [if_pos h]
        simp
      · rw [if_neg h]
        cases hs : splitSepAux sep f rest with
        | nil => simp
        | cons s0 tail => simp

/-- Joining with a head segment that starts with a character. -/
theorem joinSep_cons_head (sep : List Char) (c : Char) (s0 : List Char)
    (tail : List (List Char)) :
    joinSep sep ((c :: s0) :: tail) = c :: joinSep sep (s0 :: tail) := by
  cases tail with
  | nil => rfl
  | cons t ts => rfl

/-- Python `str.replace` is the rejoin of the occurrence decomposition:
both scanners make the same decision at every position. -/
theorem replaceAllAux_eq_joinSep (sep rep : List Char) :
    ∀ (fuel : Nat) (s : List Char),
      replaceAllAux sep rep fuel s = joinSep rep (splitSepAux sep fuel s) := by
  intro fuel
  induction fuel with
  | zero => intro s; rfl
  | succ f ih =>
    intro s
    cases s with
    | nil => rfl
    | cons c rest =>
      rw [replaceAllAux, splitSepAux]
      by_cases h : sep ≠ [] ∧ sep.isPrefixOf (c :: rest)
      · rw [if_pos h, if_pos h, ih]
        cases hs : splitSepAux sep f (List.drop (sep.length - 1) rest) with
        | nil => exact absurd hs (splitSepAux_ne_nil sep f _)
        | cons s0 tail => rfl
      · rw [if_neg h, if_neg h, ih]
        cases hs : splitSepAux sep f rest with
        | nil => exact absurd hs (splitSepAux_ne_nil sep f rest)
        | cons s0 tail =>
          show c :: joinSep rep (s0 :: tail) = joinSep rep ((c :: s0) :: tail)
          exact (joinSep_cons_head rep c s0 tail).symm

/-- Rejoining the segments with the separator reproduces the input. -/
theorem splitSepAux_join (sep : List Char) :
    ∀ (fuel : Nat) (s : List Char),
      joinSep sep (splitSepAux sep fuel s) = s := by
  intro fuel
  induction fuel with
  | zero => intro s; rfl
  | succ f ih =>
    intro s
    cases s with
    | nil => rfl
    | cons c rest =>
      rw [splitSepAux]
      by_cases h : sep ≠ [] ∧ sep.isPrefixOf (c :: rest)
      · rw [if_pos h]
        obtain ⟨t, ht⟩ := List.isPrefixOf_iff_prefix.mp h.2
        have hdrop : List.drop (sep.length - 1) rest = t := by
          have h2 : List.drop sep.length (c :: rest) = t := by
            rw [← ht, List.drop_left]
          cases sep with
          | nil => exact absurd rfl h.1
          | cons a as =>
            simp only [List.length_cons] at h2
            rw [List.drop_succ_cons] at h2
            simp only [List.length_cons]
            rw [show as.length + 1 - 1 = as.length from by omega]
            exact h2
        rw [hdrop]
        cases hs : splitSepAux sep f t with
        | nil => exact absurd hs (splitSepAux_ne_nil sep f t)
        | cons s0 tail =>
          have hj := ih t
          rw [hs] at hj
          show [] ++ sep ++ joinSep sep (s0 :: tail) = c :: rest
          rw [List.nil_append, hj, ht]
      · rw [if_neg h]
        cases hs : splitSepAux sep f rest with
        | nil => exact absurd hs (splitSepAux_ne_nil sep f rest)
        | cons s0 tail =>
          show joinSep sep ((c :: s0) :: tail) = c :: rest
          rw [joinSep_cons_head]
          have hj := ih rest
          rw [hs] at hj
          rw [hj]

/-- The first segment is a prefix of the input. -/
theorem splitSepAux_head_prefix (sep : List Char) :
    ∀ (fuel : Nat) (s s0 : List Char) (tail : List (List Char)),
      splitSepAux sep fuel s = s0 :: tail → s0 <+: s := by
  intro fuel
  induction fuel with
  | zero =>
    intro s s0 tail h
    rw [splitSepAux] at h
    obtain ⟨h1, _⟩ := (List.cons.injEq _ _ _ _).mp h
    rw [← h1]
  | succ f ih =>
    intro s s0 tail h
    cases s with
    | nil =>
      rw [splitSepAux] at h
      obtain ⟨h1, _⟩ := (List.cons.injEq _ _ _ _).mp h
      rw [← h1]
    | cons c rest =>
      rw [splitSepAux] at h
      by_cases hc : sep ≠ [] ∧ sep.isPrefixOf (c :: rest)
      · rw [if_pos hc] at h
        obtain ⟨h1, _⟩ := (List.cons.injEq _ _ _ _).mp h
        rw [← h1]
        exact List.nil_prefix
      · rw [if_neg hc] at h
        cases hs : splitSepAux sep f rest with
        | nil => exact absurd hs (splitSepAux_ne_nil sep f rest)
        | cons t0 ttail =>
          rw [hs] at h
          obtain ⟨h1, _⟩ := (List.cons.injEq _ _ _ _).mp h
          rw [← h1]
          exact List.cons_prefix_cons.mpr ⟨rfl, ih rest t0 ttail hs⟩

/-- No segment of the decomposition contains the separator. -/
theorem splitSepAux_segments_free (c0 : Char) (pt : List Char) :
    ∀ (fuel : Nat) (s : List Char), s.length ≤ fuel →
      ∀ seg ∈ splitSepAux (c0 :: pt) fuel s, isSubstr (c0 :: pt) seg = false := by
  intro fuel
  induction fuel with
  | zero =>
    intro s hlen seg hseg
    have hnil : s = [] := List.eq_nil_of_length_eq_zero (Nat.le_zero.mp hlen)
    subst hnil
    rw [splitSepAux] at hseg
    rw [List.mem_singleton.mp hseg]
    rfl
  | succ f ih =>
    intro s hlen seg hseg
    cases s with
    | nil =>
      rw [splitSepAux] at hseg
      rw [List.mem_singleton.mp hseg]
      rfl
    | cons c rest =>
      have hrest : rest.length ≤ f := by
        simp only [List.length_cons] at hlen
        omega
      rw [splitSepAux] at hseg
      by_cases hc : (c0 :: pt) ≠ [] ∧ (c0 :: pt).isPrefixOf (c :: rest)
      · rw [if_pos hc] at hseg
        rw [List.mem_cons] at hseg
        rcases hseg with h1 | h1
        · rw [h1]; rfl
        · refine ih _ ?_ seg h1
          have : (List.drop ((c0 :: pt).length - 1) rest).length ≤ rest.length := by
            rw [List.length_drop]; omega
          omega
      · rw [if_neg hc] at hseg
        cases hs : splitSepAux (c0 :: pt) f rest with
        | nil => exact absurd hs (splitSepAux_ne_nil (c0 :: pt) f rest)
        | cons s0 tail =>
          rw [hs] at hseg
          rw [List.mem_cons] at hseg
          rcases hseg with h1 | h1
          · rw [h1, isSubstr]
            have hs0 : isSubstr (c0 :: pt) s0 = false :=
              ih rest hrest s0 (by rw [hs]; simp)
            have hpre : (c0 :: pt).isPrefixOf (c :: s0) = false := by
              by_contra hcon
              have hpre' : (c0 :: pt).isPrefixOf (c :: s0) = true := by
                revert hcon
                cases ((c0 :: pt).isPrefixOf (c :: s0)) <;> simp
              have hs0p : s0 <+: rest :=
                splitSepAux_head_prefix (c0 :: pt) f rest s0 tail hs
              have hwhole : (c0 :: pt) <+: (c :: rest) :=
                List.IsPrefix.trans (List.isPrefixOf_iff_prefix.mp hpre')
                  (List.cons_prefix_cons.mpr ⟨rfl, hs0p⟩)
              exact hc ⟨by simp, List.isPrefixOf_iff_prefix.mpr hwhole⟩
            rw [hpre, hs0]
            rfl
          · exact ih rest hrest seg (by rw [hs]; exact List.mem_cons.mpr (Or.inr h1))

/-- A pattern that is a prefix of some suffix is a substring. -/
theorem isSubstr_of_drop_prefix (L : List Char) (hL : L ≠ []) :
    ∀ (u : List Char) (i : Nat), L.isPrefixOf (u.drop i) = true → isSubstr L u = true := by
  intro u
  induction u with
  | nil =>
    intro i h
    rw [List.drop_nil] at h
    cases L with
    | nil => exact absurd rfl hL
    | cons a as =>
      have hfalse : (a :: as).isPrefixOf ([] : List Char) = false := rfl
      rw [hfalse] at h
      exact Bool.noConfusion h
  | cons c t ih =>
    intro i h
    cases i with
    | zero =>
      rw [List.drop_zero] at h
      rw [isSubstr, h]
      simp
    | succ k =>
      rw [List.drop_succ_cons] at h
      rw [isSubstr, ih k h]
      simp

/-- When the pattern does not occur in the prefix region (including
occurrences that would spill one character into the following literal
copy), no scan position inside the prefix starts a pattern match. -/
theorem pointwise_no_occ (L : List Char) (hL : L ≠ []) (p rest : List Char)
    (h : isSubstr L (p ++ L.dropLast) = false) :
    ∀ i, i < p.length → L.isPrefixOf ((p ++ (L ++ rest)).drop i) = false := by
  intro i hi
  by_contra hcon
  have hpre : L.isPrefixOf ((p ++ (L ++ rest)).drop i) = true := by
    revert hcon
    cases L.isPrefixOf ((p ++ (L ++ rest)).drop i) <;> simp
  have hLpos : 1 ≤ L.length := by
    cases L with
    | nil => exact absurd rfl hL
    | cons a as => simp
  have hdoc : p ++ (L ++ rest) = (p ++ L.dropLast) ++ (L.getLast hL :: rest) := by
    conv_lhs => rw [← List.dropLast_append_getLast hL]
    simp [List.append_assoc]
  rw [hdoc] at hpre
  have hdropA : ((p ++ L.dropLast) ++ (L.getLast hL :: rest)).drop i =
      (p ++ L.dropLast).drop i ++ (L.getLast hL :: rest) :=
    List.drop_append_of_le_length (by rw [List.length_append]; omega)
  rw [hdropA, List.isPrefixOf_iff_prefix] at hpre
  have htake := List.prefix_iff_eq_take.mp hpre
  rw [List.take_append_of_le_length (by
    rw [List.length_drop, List.length_append, List.length_dropLast]
    omega)] at htake
  have hsub : isSubstr L (p ++ L.dropLast) = true :=
    isSubstr_of_drop_prefix L hL (p ++ L.dropLast) i
      (List.isPrefixOf_iff_prefix.mpr (List.prefix_iff_eq_take.mpr htake))
  rw [h] at hsub
  simp at hsub

/-- The regex scanner copies any prefix in which no position starts an
occurrence of the opening literal. -/
theorem regexSubSecAux_pass_no_occ (L : List Char) (rep : List Char → List Char) :
    ∀ (p : List Char) (fuel : Nat) (rest : List Char),
      (∀ i, i < p.length → L.isPrefixOf ((p ++ rest).drop i) = false) →
      regexSubSecAux L rep (p.length + fuel) (p ++ rest) =
        p ++ regexSubSecAux L rep fuel rest := by
  intro p
  induction p with
  | nil => intro fuel rest _; simp
  | cons c ps ih =>
    intro fuel rest hp
    have h0 : L.isPrefixOf ((c :: ps) ++ rest) = false := by
      have := hp 0 (by simp)
      rwa [List.drop_zero] at this
    have harith : (c :: ps).length + fuel = (ps.length + fuel) + 1 := by
      simp [List.length_cons]
      omega
    rw [harith, List.cons_append, regexSubSecAux,
      if_neg (by
        rw [show c :: (ps ++ rest) = (c :: ps) ++ rest from rfl, h0]
        simp)]
    rw [ih fuel rest (fun i hi => by
      have := hp (i + 1) (by simp only [List.length_cons]; omega)
      rwa [List.cons_append, List.drop_succ_cons] at this)]
    simp

/-- The lazy kernel of the section pattern: if the closing pattern
matches right after `mid` and at no earlier position, the lazy search
returns exactly the length of `mid`. -/
theorem findLazyTail_least :
    ∀ (mid tail : List Char) (m : Nat),
      findTailEnd tail = some m →
      (∀ j, j < mid.length → findTailEnd ((mid ++ tail).drop j) = none) →
      findLazyTail (mid ++ tail) = some (mid.length, m) := by
  intro mid
  induction mid with
  | nil =>
    intro tail m hm _
    cases tail with
    | nil =>
      rw [findTailEnd, if_neg (by decide)] at hm
      exact absurd hm (by simp)
    | cons c t =>
      rw [List.nil_append, findLazyTail, hm]
      rfl
  | cons c cs ih =>
    intro tail m hm hj
    have h0 : findTailEnd (c :: (cs ++ tail)) = none := by
      have := hj 0 (by simp)
      rwa [List.drop_zero, List.cons_append] at this
    rw [List.cons_append, findLazyTail, h0]
    rw [ih tail m hm (fun j hjj => by
      have := hj (j + 1) (by simp only [List.length_cons]; omega)
      rwa [List.cons_append, List.drop_succ_cons] at this)]
    simp

/-- C2 (amended): with a nonempty edge list,
`inject_related_charts_to_field_html`
(1) replaces the whole existing Related-Charts block with the freshly
rendered one whenever the document decomposes as prefix, opening literal,
middle, closing `</p>` + whitespace + `<p>&nbsp;</p>` spacer, and tail,
where the opening shown is the document's first and the closing shown is
the first one after the opening (the lazy-regex semantics), keeping the
prefix and the block-free tail unchanged;
(2) when no block marker is present but the document contains `<hr>`,
inserts the freshly rendered block immediately before every occurrence of
the `<hr>` divider: every document is exactly the join of its `<hr>`-free
segments, and the result is those same segments rejoined with the rendered
block prefixed to each divider — hence exactly once when the document
contains a single `<hr>`; and
(3) appends the block to the end (after a newline) when the document
contains no `<hr>`. -/
theorem inject_related_charts_branches :
    (∀ (p mid ws s : List Char) (names urls : List (List Char)),
      names ≠ [] → urls ≠ [] →
      isSubstr relatedChartsLit (p ++ relatedChartsLit.dropLast) = false →
      (∀ c ∈ ws, isPySpace c = true) →
      (∀ j, j < mid.length →
        findTailEnd ((mid ++ (chars "</p>" ++ (ws ++ (chars "<p>&nbsp;</p>" ++ s)))).drop j) =
          none) →
      isSubstr relatedChartsLit s = false →
      inject_related_charts_to_field_html
        (p ++ (relatedChartsLit ++
          (mid ++ (chars "</p>" ++ (ws ++ (chars "<p>&nbsp;</p>" ++ s)))))) names urls =
        p ++ (renderSection (chars "Related Charts") names urls ++ s)) ∧
    (∀ (html : List Char) (names urls : List (List Char)),
      names ≠ [] → urls ≠ [] →
      isSubstr relatedChartsMarker html = false →
      isSubstr (chars "<hr>") html = true →
      (joinSep (chars "<hr>") (splitSep (chars "<hr>") html) = html ∧
       (∀ seg ∈ splitSep (chars "<hr>") html, isSubstr (chars "<hr>") seg = false) ∧
       inject_related_charts_to_field_html html names urls =
         joinSep (renderSection (chars "Related Charts") names urls ++ chars "<hr>")
           (splitSep (chars "<hr>") html))) ∧
    (∀ (html : List Char) (names urls : List (List Char)),
      names ≠ [] → urls ≠ [] →
      isSubstr relatedChartsMarker html = false → isSubstr (chars "<hr>") html = false →
      inject_related_charts_to_field_html html names urls =
        html ++ (Char.ofNat 10 :: renderSection (chars "Related Charts") names urls)) := by
  refine ⟨?_, ?_, ?_⟩
  · intro p mid ws s names urls hn hu h1 hws hlazy hs
    have hmarker : isSubstr relatedChartsMarker
        (p ++ (relatedChartsLit ++
          (mid ++ (chars "</p>" ++ (ws ++ (chars "<p>&nbsp;</p>" ++ s)))))) = true := by
      rw [show relatedChartsLit ++
          (mid ++ (chars "</p>" ++ (ws ++ (chars "<p>&nbsp;</p>" ++ s)))) =
        chars "<p>" ++ (relatedChartsMarker ++
          (mid ++ (chars "</p>" ++ (ws ++ (chars "<p>&nbsp;</p>" ++ s))))) from rfl]
      rw [← List.append_assoc]
      rw [show relatedChartsMarker = '<' :: chars "strong>Related Charts:</strong>" from rfl]
      exact isSubstr_middle '<' (chars "strong>Related Charts:</strong>") (p ++ chars "<p>") _
    rw [inject_related_charts_to_field_html, if_neg (by simp [hn, hu]), if_pos hmarker]
    rw [regexSubSec]
    have hlen : (p ++ (relatedChartsLit ++
        (mid ++ (chars "</p>" ++ (ws ++ (chars "<p>&nbsp;</p>" ++ s)))))).length =
        p.length + (relatedChartsLit ++
          (mid ++ (chars "</p>" ++ (ws ++ (chars "<p>&nbsp;</p>" ++ s))))).length := by
      simp
    rw [hlen]
    rw [regexSubSecAux_pass_no_occ relatedChartsLit _ p _ _
      (pointwise_no_occ relatedChartsLit (by decide) p
        (mid ++ (chars "</p>" ++ (ws ++ (chars "<p>&nbsp;</p>" ++ s)))) h1)]
    have hfl : findLazyTail
        (mid ++ (chars "</p>" ++ (ws ++ (chars "<p>&nbsp;</p>" ++ s)))) =
        some (mid.length, 4 + ws.length + 13) :=
      findLazyTail_least mid (chars "</p>" ++ (ws ++ (chars "<p>&nbsp;</p>" ++ s)))
        (4 + ws.length + 13) (findTailEnd_at_boundary ws s hws) hlazy
    rw [show relatedChartsLit = '<' :: chars "p><strong>Related Charts:</strong>" from rfl]
    have hlen2 : (('<' :: chars "p><strong>Related Charts:</strong>") ++
        (mid ++ (chars "</p>" ++ (ws ++ (chars "<p>&nbsp;</p>" ++ s))))).length =
        ((chars "p><strong>Related Charts:</strong>" ++
          (mid ++ (chars "</p>" ++ (ws ++ (chars "<p>&nbsp;</p>" ++ s))))).length) + 1 := by
      simp
    rw [hlen2]
    rw [regexSubSecAux_hit '<' (chars "p><strong>Related Charts:</strong>") _ _ _ _ _ hfl]
    have hdrop : (('<' :: chars "p><strong>Related Charts:</strong>") ++
        (mid ++ (chars "</p>" ++ (ws ++ (chars "<p>&nbsp;</p>" ++ s))))).drop
        (('<' :: chars "p><strong>Related Charts:</strong>").length + mid.length +
          (4 + ws.length + 13)) = s := by
      rw [show ('<' :: chars "p><strong>Related Charts:</strong>").length + mid.length +
          (4 + ws.length + 13) =
        ('<' :: chars "p><strong>Related Charts:</strong>").length +
          (mid.length + ((chars "</p>").length +
            (ws.length + (chars "<p>&nbsp;</p>").length))) from by
        simp [show (chars "</p>").length = 4 from rfl,
          show (chars "<p>&nbsp;</p>").length = 13 from rfl]
        omega]
      rw [List.drop_append]
      rw [List.drop_append]
      rw [List.drop_append]
      rw [List.drop_append]
      simp
    rw [hdrop]
    rw [regexSubSecAux_no_match _ _ _ s (by exact hs)]
  · intro html names urls hn hu hmk hhr
    refine ⟨splitSepAux_join (chars "<hr>") html.length html, ?_, ?_⟩
    · intro seg hseg
      have hfree := splitSepAux_segments_free '<' (chars "hr>") html.length html
        (le_refl _) seg
      rw [show ('<' :: chars "hr>") = chars "<hr>" from rfl] at hfree
      exact hfree hseg
    · rw [inject_related_charts_to_field_html, if_neg (by simp [hn, hu]),
        if_neg (by simp [hmk]), if_pos hhr]
      rw [replaceAll]
      exact replaceAllAux_eq_joinSep (chars "<hr>")
        (renderSection (chars "Related Charts") names urls ++ chars "<hr>")
        html.length html
  · intro html names urls hn hu h1 h2
    rw [inject_related_charts_to_field_html, if_neg (by simp [hn, hu]), if_neg (by simp [h1]),
      if_neg (by simp [h2])]
    simp

/-- Witness for the amended C2 theorem: one concrete instance per branch
(the insertion branch on a document with two dividers receives the block
before both). -/
theorem inject_related_charts_branches_witness :
    (inject_related_charts_to_field_html
      (chars "AB" ++ (relatedChartsLit ++
        (chars "xy" ++ (chars "</p>" ++ ([Char.ofNat 10] ++
          (chars "<p>&nbsp;</p>" ++ chars "tail")))))) [chars "C"] [chars "u"] =
      chars "AB" ++ (renderSection (chars "Related Charts") [chars "C"] [chars "u"] ++
        chars "tail")) ∧
    (joinSep (chars "<hr>") (splitSep (chars "<hr>") (chars "x<hr>y<hr>z")) =
      chars "x<hr>y<hr>z" ∧
     inject_related_charts_to_field_html (chars "x<hr>y<hr>z") [chars "C"] [chars "u"] =
      joinSep (renderSection (chars "Related Charts") [chars "C"] [chars "u"] ++
        chars "<hr>") (splitSep (chars "<hr>") (chars "x<hr>y<hr>z"))) ∧
    (inject_related_charts_to_field_html (chars "plain") [chars "C"] [chars "u"] =
      chars "plain" ++ (Char.ofNat 10 :: renderSection (chars "Related Charts")
        [chars "C"] [chars "u"])) := by
  refine ⟨?_, ?_, ?_⟩
  · exact inject_related_charts_branches.1 (chars "AB") (chars "xy") [Char.ofNat 10]
      (chars "tail") [chars "C"] [chars "u"] (by decide) (by decide) (by decide)
      (by decide) (by decide) (by decide)
  · have h := inject_related_charts_branches.2.1 (chars "x<hr>y<hr>z")
      [chars "C"] [chars "u"] (by decide) (by decide) (by decide) (by decide)
    exact ⟨h.1, h.2.2⟩
  · exact inject_related_charts_branches.2.2 (chars "plain") [chars "C"] [chars "u"]
      (by decide) (by decide) (by decide) (by decide)

/-! ### Context-tree structure lemmas (C5) -/

/-- Pointwise-equal functions give equal concatenated maps. -/
theorem concatMapL_congr {α β : Type} (f g : α → List β) :
    ∀ l : List α, (∀ x ∈ l, f x = g x) → concatMapL f l = concatMapL g l := by
  intro l
  induction l with
  | nil => intro _; rfl
  | cons a as ih =>
    intro h
    rw [concatMapL, concatMapL, h a (by simp), ih (fun x hx => h x (by simp [hx]))]

/-- Any two sufficient fuels give the same context tree: `7 - depth` calls
suffice because the depth guard stops the recursion at depth 6. -/
theorem genCtxAux_fuel_congr (fm : List (List Char × FieldInfo))
    (ihm : List (List Char × List Char)) (fl : List FilterElem) (xml : List Char) :
    ∀ (f1 f2 : Nat) (k : List Char) (d : Nat) (v : List (List Char)),
      1 ≤ f1 → 1 ≤ f2 → 7 - d ≤ f1 → 7 - d ≤ f2 →
      genCtxAux fm ihm fl xml f1 k d v = genCtxAux fm ihm fl xml f2 k d v := by
  intro f1
  induction f1 with
  | zero => intro f2 k d v h1; omega
  | succ a iha =>
    intro f2 k d v h1 h2 h3 h4
    cases f2 with
    | zero => omega
    | succ b =>
      by_cases hd : d > 5
      · simp only [genCtxAux, if_pos hd]
      · simp only [genCtxAux, if_neg hd]
        by_cases hv : v.contains k
        · simp only [if_pos hv]
        · simp only [if_neg hv]
          cases hlk : lookupA fm k with
          | none => rfl
          | some info =>
            by_cases hc : info.is_calc
            · simp only [hc, if_pos]
              congr 2
              refine concatMapL_congr _ _ _ ?_
              intro dep _
              by_cases hne : depNormKey dep ≠ k
              · simp only [if_pos hne]
                exact iha b (depNormKey dep) (d + 1) (k :: v)
                  (by omega) (by omega) (by omega) (by omega)
              · simp only [if_neg hne]
            · simp [hc]


/-- One-step unfolding of the generator on a calculated field. -/
theorem genCtxAux_succ_calc (fm : List (List Char × FieldInfo))
    (ihm : List (List Char × List Char)) (fl : List FilterElem) (xml : List Char)
    (fuel : Nat) (k : List Char) (d : Nat) (v : List (List Char)) (info : FieldInfo)
    (hd : ¬ d > 5) (hv : v.contains k = false)
    (hlk : lookupA fm k = some info) (hc : info.is_calc = true) :
    genCtxAux fm ihm fl xml (fuel + 1) k d v =
      (indentOf d ++ branchMark d ++ chars "FIELD: [" ++ info.raw_name ++
        chars "] (Calculation)") ::
      (indentOf d ++ chars "   Formula: " ++ translate_formula info.formula ihm) ::
      concatMapL
        (fun dep =>
          if depNormKey dep ≠ k then
            genCtxAux fm ihm fl xml fuel (depNormKey dep) (d + 1) (k :: v)
          else [])
        (sortLex (dedupL (bracketDeps (translate_formula info.formula ihm)))) := by
  simp only [genCtxAux, if_neg hd, hv, Bool.false_eq_true, if_false, hlk, hc, if_true]



/-- For a calculated field (within the depth bound, not yet visited) the
context block is the header, then the translated-formula line, then the
dependency sub-blocks in the sort order of the unique bracket-delimited
names of the translated formula. -/
theorem generate_context_tree_calc_eq (fm : List (List Char × FieldInfo))
    (ihm : List (List Char × List Char)) (fl : List FilterElem) (xml : List Char)
    (k : List Char) (d : Nat) (v : List (List Char)) (info : FieldInfo)
    (hd : d ≤ 5) (hv : v.contains k = false)
    (hlk : lookupA fm k = some info) (hc : info.is_calc = true) :
    generate_context_tree fm ihm fl xml k d v =
      (indentOf d ++ branchMark d ++ chars "FIELD: [" ++ info.raw_name ++
        chars "] (Calculation)") ::
      (indentOf d ++ chars "   Formula: " ++ translate_formula info.formula ihm) ::
      concatMapL
        (fun dep =>
          if depNormKey dep ≠ k then
            generate_context_tree fm ihm fl xml (depNormKey dep) (d + 1) (k :: v)
          else [])
        (sortLex (dedupL (bracketDeps (translate_formula info.formula ihm)))) := by
  have h70 : (7 : Nat) = 6 + 1 := rfl
  unfold generate_context_tree
  rw [h70, genCtxAux_succ_calc fm ihm fl xml 6 k d v info (by omega) hv hlk hc]
  refine congrArg₂ List.cons rfl (congrArg₂ List.cons rfl ?_)
  refine concatMapL_congr _ _ _ ?_
  intro dep _
  by_cases hne : depNormKey dep ≠ k
  · simp only [if_pos hne]
    exact genCtxAux_fuel_congr fm ihm fl xml 6 7 (depNormKey dep) (d + 1) (k :: v)
      (by omega) (by omega) (by omega) (by omega)
  · simp only [if_neg hne]

/-- C5 (amended): the translated-formula line precedes all nested
dependency sub-blocks, which appear in the sort order of the unique
bracket-delimited names of the translated formula; in the end-to-end
`Margin` scenario the block identifies `Margin` as a Calculation, repeats
the raw formula verbatim, and is followed by the `Cost` and `Revenue`
dependency blocks in that sorted order, each reporting `Native` with its
range line. -/
theorem context_tree_formula_then_sorted_deps :
    (∀ (fm : List (List Char × FieldInfo)) (ihm : List (List Char × List Char))
        (fl : List FilterElem) (xml : List Char) (k : List Char) (d : Nat)
        (v : List (List Char)) (info : FieldInfo),
      d ≤ 5 → v.contains k = false → lookupA fm k = some info → info.is_calc = true →
      generate_context_tree fm ihm fl xml k d v =
        (indentOf d ++ branchMark d ++ chars "FIELD: [" ++ info.raw_name ++
          chars "] (Calculation)") ::
        (indentOf d ++ chars "   Formula: " ++ translate_formula info.formula ihm) ::
        concatMapL
          (fun dep =>
            if depNormKey dep ≠ k then
              generate_context_tree fm ihm fl xml (depNormKey dep) (d + 1) (k :: v)
            else [])
          (sortLex (dedupL (bracketDeps (translate_formula info.formula ihm))))) ∧
    marginContext =
      [chars "FIELD: [Margin] (Calculation)",
       chars "   Formula: ([Revenue]-[Cost])/[Revenue]",
       chars "  └─ FIELD: [Cost] (Native real)",
       chars "     Values: (Numeric Measure - No hardcoded filter range found)",
       chars "  └─ FIELD: [Revenue] (Native real)",
       chars "     Values: (Numeric Measure - No hardcoded filter range found)"] :=
  ⟨generate_context_tree_calc_eq, by decide⟩

/-- Witness for the amended C5 theorem: the universal part instantiated on
the `Margin` scenario. -/
theorem context_tree_formula_then_sorted_deps_witness :
    generate_context_tree marginFieldMap marginIdToHuman [] [] (chars "margin") 0 [] =
      (indentOf 0 ++ branchMark 0 ++ chars "FIELD: [" ++ chars "Margin" ++
        chars "] (Calculation)") ::
      (indentOf 0 ++ chars "   Formula: " ++
        translate_formula (chars "([Revenue]-[Cost])/[Revenue]") marginIdToHuman) ::
      concatMapL
        (fun dep =>
          if depNormKey dep ≠ chars "margin" then
            generate_context_tree marginFieldMap marginIdToHuman [] []
              (depNormKey dep) (0 + 1) (chars "margin" :: [])
          else [])
        (sortLex (dedupL (bracketDeps
          (translate_formula (chars "([Revenue]-[Cost])/[Revenue]") marginIdToHuman)))) :=
  context_tree_formula_then_sorted_deps.1 marginFieldMap marginIdToHuman [] []
    (chars "margin") 0 []
    ⟨chars "Margin", chars "measure", chars "real", true,
      chars "([Revenue]-[Cost])/[Revenue]"⟩
    (by omega) (by decide) (by decide) (by decide)

/-! ### Cleaning-pipeline fixpoint lemmas (C8) -/

/-- `dropWhile` is idempotent. -/
theorem dropWhile_idem (f : Char → Bool) (l : List Char) :
    (l.dropWhile f).dropWhile f = l.dropWhile f := by
  induction l with
  | nil => rfl
  | cons c rest ih =>
    by_cases hc : f c
    · simp [List.dropWhile, hc, ih]
    · simp [List.dropWhile, hc]

/-- The head surviving a `dropWhile` fails the predicate. -/
theorem head_dropWhile_false (f : Char → Bool) (l : List Char) (c : Char) (rest : List Char)
    (h : l.dropWhile f = c :: rest) : f c = false := by
  have := List.head?_dropWhile_not f l
  rw [h] at this
  simpa using this

/-- `pyStrip` is idempotent. -/
theorem pyStrip_idem (p : List Char) : pyStrip (pyStrip p) = pyStrip p := by
  have hA : p.takeWhile isPySpace ++ p.dropWhile isPySpace = p :=
    List.takeWhile_append_dropWhile isPySpace p
  have hq1 : (pyStrip p).dropWhile isPySpace = pyStrip p := by
    rw [pyStrip]
    cases hB : ((p.dropWhile isPySpace).reverse.dropWhile isPySpace).reverse with
    | nil => simp
    | cons c q =>
      have hmem : (p.dropWhile isPySpace) =
          (c :: q) ++ ((p.dropWhile isPySpace).reverse.takeWhile isPySpace).reverse := by
        have h2 := List.takeWhile_append_dropWhile isPySpace (p.dropWhile isPySpace).reverse
        have h3 := congrArg List.reverse h2
        rw [List.reverse_append] at h3
        rw [hB] at h3
        rw [List.reverse_reverse] at h3
        exact h3.symm
      have hc : isPySpace c = false := by
        rcases hd : p.dropWhile isPySpace with _ | ⟨d, ds⟩
        · rw [hd] at hmem; simp at hmem
        · have hdfalse : isPySpace d = false := head_dropWhile_false isPySpace p d ds hd
          rw [hd] at hmem
          have : d = c := by
            have := congrArg List.head? hmem
            simpa using this
          rw [← this]; exact hdfalse
      simp [List.dropWhile, hc]
  rw [pyStrip, hq1]
  rw [show (pyStrip p).reverse = (p.dropWhile isPySpace).reverse.dropWhile isPySpace from by
    rw [pyStrip, List.reverse_reverse]]
  rw [dropWhile_idem]
  rw [show ((p.dropWhile isPySpace).reverse.dropWhile isPySpace) = (pyStrip p).reverse from by
    rw [pyStrip, List.reverse_reverse]]
  rw [List.reverse_reverse]

/-- A character of a split part comes from the input or the accumulator,
and is never a splitter. -/
theorem mem_splitMulDivAux (s : List Char) :
    ∀ (cur part : List Char), part ∈ splitMulDivAux s cur →
      ∀ c ∈ part, (c ∈ s ∨ c ∈ cur) ∧ (c ∈ cur ∨ (c ≠ '*' ∧ c ≠ '/')) := by
  induction s with
  | nil =>
    intro cur part hp c hc
    simp only [splitMulDivAux, List.mem_singleton] at hp
    subst hp
    rw [List.mem_reverse] at hc
    exact ⟨Or.inr hc, Or.inl hc⟩
  | cons a rest ih =>
    intro cur part hp c hc
    by_cases ha : a = '*' ∨ a = '/'
    · rw [splitMulDivAux, if_pos ha] at hp
      rcases List.mem_cons.mp hp with hp1 | hp1
      · subst hp1
        rw [List.mem_reverse] at hc
        exact ⟨Or.inr hc, Or.inl hc⟩
      · rcases ih [] part hp1 c hc with ⟨h1, h2⟩
        rcases h1 with h1 | h1
        · exact ⟨Or.inl (by simp [h1]), Or.inr (h2.resolve_left (by simp))⟩
        · simp at h1
    · rw [splitMulDivAux, if_neg ha] at hp
      rcases ih (a :: cur) part hp c hc with ⟨h1, h2⟩
      push_neg at ha
      constructor
      · rcases h1 with h1 | h1
        · exact Or.inl (by simp [h1])
        · rcases List.mem_cons.mp h1 with h3 | h3
          · exact Or.inl (by simp [h3])
          · exact Or.inr h3
      · rcases h2 with h2 | h2
        · rcases List.mem_cons.mp h2 with h3 | h3
          · subst h3; exact Or.inr ha
          · exact Or.inl h3
        · exact Or.inr h2

/-- Characters of a stripped list come from the list. -/
theorem mem_pyStrip (p : List Char) (c : Char) (h : c ∈ pyStrip p) : c ∈ p := by
  rw [pyStrip] at h
  rw [List.mem_reverse] at h
  have h2 := List.dropWhile_sublist (l := (p.dropWhile isPySpace).reverse) (p := isPySpace)
  have h3 := h2.mem h
  rw [List.mem_reverse] at h3
  exact (List.dropWhile_sublist (l := p) (p := isPySpace)).mem h3

/-- Collected parts are strips of split parts. -/
theorem mem_collectParts (parts : List (List Char)) (q : List Char)
    (h : q ∈ collectParts parts) : ∃ p ∈ parts, q = pyStrip p := by
  have hgen : ∀ (l acc : List (List Char)),
      q ∈ l.foldl (fun acc p =>
        let p := pyStrip p
        if p ≠ [] ∧ !(acc.contains p) then acc ++ [p] else acc) acc →
      q ∈ acc ∨ ∃ p ∈ l, q = pyStrip p := by
    intro l
    induction l with
    | nil => intro acc hq; exact Or.inl hq
    | cons x xs ihx =>
      intro acc hq
      simp only [List.foldl_cons] at hq
      rcases ihx _ hq with hq1 | hq1
      · by_cases hcond : pyStrip x ≠ [] ∧ !(acc.contains (pyStrip x))
        · rw [if_pos hcond] at hq1
          rcases List.mem_append.mp hq1 with hq2 | hq2
          · exact Or.inl hq2
          · exact Or.inr ⟨x, by simp, List.mem_singleton.mp hq2⟩
        · rw [if_neg hcond] at hq1
          exact Or.inl hq1
      · rcases hq1 with ⟨p, hp1, hp2⟩
        exact Or.inr ⟨p, by simp [hp1], hp2⟩
  rw [collectParts] at h
  rcases hgen parts [] h with h1 | h1
  · simp at h1
  · exact h1

/-- Characters of a joined list come from the separator or the parts. -/
theorem mem_joinSep (sep : List Char) :
    ∀ (ps : List (List Char)) (c : Char), c ∈ joinSep sep ps →
      c ∈ sep ∨ ∃ p ∈ ps, c ∈ p := by
  intro ps
  induction ps with
  | nil => intro c hc; simp [joinSep] at hc
  | cons x xs ih =>
    intro c hc
    cases xs with
    | nil =>
      rw [joinSep] at hc
      exact Or.inr ⟨x, by simp, hc⟩
    | cons y ys =>
      rw [joinSep] at hc
      rcases List.mem_append.mp hc with h1 | h1
      · rcases List.mem_append.mp h1 with h2 | h2
        · exact Or.inr ⟨x, by simp, h2⟩
        · exact Or.inl h2
      · rcases ih c h1 with h2 | h2
        · exact Or.inl h2
        · rcases h2 with ⟨p, hp1, hp2⟩
          exact Or.inr ⟨p, by simp [List.mem_cons.mp hp1], hp2⟩

/-- A `dropWhile` of full length is the identity. -/
theorem dropWhile_eq_self_of_length (f : Char → Bool) (l : List Char)
    (h : (l.dropWhile f).length = l.length) : l.dropWhile f = l := by
  have hsfx := List.dropWhile_suffix (l := l) (p := f)
  exact List.IsSuffix.eq_of_length hsfx h

/-- A fixed point of `dropWhile` stays fixed after appending. -/
theorem dropWhile_self_append (f : Char → Bool) (l y : List Char)
    (hl : l.dropWhile f = l) (hne : l ≠ []) : (l ++ y).dropWhile f = l ++ y := by
  cases l with
  | nil => exact absurd rfl hne
  | cons c cs =>
    have hc : f c = false := by
      by_cases hfc : f c
      · exfalso
        rw [List.dropWhile_cons, if_pos hfc] at hl
        have := congrArg List.length hl
        have hlen := List.Sublist.length_le (List.dropWhile_sublist (l := cs) (p := f))
        simp at this
        omega
      · simpa using hfc
    simp [List.dropWhile_cons, hc]

/-- A join of nonempty parts over any separator is nonempty. -/
theorem joinSep_ne_nil (sep : List Char) :
    ∀ ps : List (List Char), ps ≠ [] → (∀ p ∈ ps, p ≠ []) → joinSep sep ps ≠ [] := by
  intro ps
  induction ps with
  | nil => intro h; exact absurd rfl h
  | cons x xs ih =>
    intro _ hall
    cases xs with
    | nil => rw [joinSep]; exact hall x (by simp)
    | cons y ys =>
      rw [joinSep]
      have hx : x ≠ [] := hall x (by simp)
      cases x with
      | nil => exact absurd rfl hx
      | cons c cs => simp

/-- Decomposition of `pyStrip p = p` into its two `dropWhile` fixpoints. -/
theorem pyStrip_eq_self_split (p : List Char) (h : pyStrip p = p) :
    p.dropWhile isPySpace = p ∧ p.reverse.dropWhile isPySpace = p.reverse := by
  have hlen := congrArg List.length h
  rw [pyStrip] at hlen
  simp only [List.length_reverse] at hlen
  have h1 : ((p.dropWhile isPySpace).reverse.dropWhile isPySpace).length ≤
      (p.dropWhile isPySpace).length := by
    have := List.Sublist.length_le
      (List.dropWhile_sublist (l := (p.dropWhile isPySpace).reverse) (p := isPySpace))
    simpa using this
  have h2 : (p.dropWhile isPySpace).length ≤ p.length :=
    List.Sublist.length_le (List.dropWhile_sublist (l := p) (p := isPySpace))
  have hfix1 : p.dropWhile isPySpace = p :=
    dropWhile_eq_self_of_length isPySpace p (by omega)
  constructor
  · exact hfix1
  · have h3 : pyStrip p = (p.reverse.dropWhile isPySpace).reverse := by
      rw [pyStrip, hfix1]
    rw [h3] at h
    have h4 := congrArg List.reverse h
    rw [List.reverse_reverse] at h4
    exact h4

/-- `pyStrip`-fixed nonempty parts join (with `", "`) to a `pyStrip`-fixed
list. -/
theorem joinSep_stripped :
    ∀ ps : List (List Char), (∀ p ∈ ps, p ≠ [] ∧ pyStrip p = p) → ps ≠ [] →
      pyStrip (joinSep (chars ", ") ps) = joinSep (chars ", ") ps := by
  intro ps
  induction ps with
  | nil => intro _ h; exact absurd rfl h
  | cons x xs ih =>
    intro hall _
    have hx := hall x (by simp)
    rcases pyStrip_eq_self_split x hx.2 with ⟨hxf, hxb⟩
    cases xs with
    | nil =>
      rw [joinSep]
      exact hx.2
    | cons y ys =>
      rw [joinSep, List.append_assoc]
      have hJ : joinSep (chars ", ") (y :: ys) ≠ [] :=
        joinSep_ne_nil (chars ", ") (y :: ys) (by simp)
          (fun p hp => (hall p (by simp [List.mem_cons.mp hp])).1)
      have hJs : pyStrip (joinSep (chars ", ") (y :: ys)) = joinSep (chars ", ") (y :: ys) :=
        ih (fun p hp => hall p (by simp [List.mem_cons.mp hp])) (by simp)
      rcases pyStrip_eq_self_split _ hJs with ⟨hJf, hJb⟩
      rw [pyStrip]
      have hfront : (x ++ (chars ", " ++ joinSep (chars ", ") (y :: ys))).dropWhile
          isPySpace = x ++ (chars ", " ++ joinSep (chars ", ") (y :: ys)) :=
        dropWhile_self_append isPySpace x _ hxf hx.1
      rw [hfront]
      have hback : (x ++ (chars ", " ++ joinSep (chars ", ") (y :: ys))).reverse.dropWhile
          isPySpace = (x ++ (chars ", " ++ joinSep (chars ", ") (y :: ys))).reverse := by
        rw [List.reverse_append, List.reverse_append]
        refine dropWhile_self_append isPySpace _ x.reverse ?_ ?_
        · exact dropWhile_self_append isPySpace _ _ hJb (by simpa using hJ)
        · have : (joinSep (chars ", ") (y :: ys)).reverse ≠ [] := by simpa using hJ
          intro hcontra
          rcases List.append_eq_nil.mp hcontra with ⟨h1, _⟩
          exact this h1
      rw [hback, List.reverse_reverse]

/-- Every collected part is nonempty and `pyStrip`-fixed. -/
theorem collectParts_stripped (parts : List (List Char)) (q : List Char)
    (h : q ∈ collectParts parts) : q ≠ [] ∧ pyStrip q = q := by
  have hgen : ∀ (l acc : List (List Char)),
      (∀ r ∈ acc, r ≠ [] ∧ pyStrip r = r) →
      ∀ r ∈ l.foldl (fun acc p =>
        let p := pyStrip p
        if p ≠ [] ∧ !(acc.contains p) then acc ++ [p] else acc) acc,
      r ≠ [] ∧ pyStrip r = r := by
    intro l
    induction l with
    | nil => intro acc hacc r hr; exact hacc r hr
    | cons x xs ihx =>
      intro acc hacc r hr
      simp only [List.foldl_cons] at hr
      by_cases hcond : pyStrip x ≠ [] ∧ !(acc.contains (pyStrip x))
      · rw [if_pos hcond] at hr
        refine ihx _ ?_ r hr
        intro r2 hr2
        rcases List.mem_append.mp hr2 with h2 | h2
        · exact hacc r2 h2
        · rw [List.mem_singleton.mp h2]
          exact ⟨hcond.1, pyStrip_idem x⟩
      · rw [if_neg hcond] at hr
        exact ihx _ hacc r hr
  rw [collectParts] at h
  exact hgen parts [] (by simp) q h

/-- Splitting a list with no `*`/`/` yields that list alone. -/
theorem splitMulDivAux_no_split (s : List Char) :
    ∀ cur : List Char, (∀ c ∈ s, c ≠ '*' ∧ c ≠ '/') →
      splitMulDivAux s cur = [cur.reverse ++ s] := by
  induction s with
  | nil => intro cur _; simp [splitMulDivAux]
  | cons a rest ih =>
    intro cur hall
    have ha := hall a (by simp)
    rw [splitMulDivAux, if_neg (by simp [ha.1, ha.2])]
    rw [ih (a :: cur) (fun c hc => hall c (by simp [hc]))]
    simp

/-- `take 1` of any sublist position reaching `:` implies `:` is present. -/
theorem colon_mem_of_drop_take (s : List Char) (n : Nat)
    (h : (s.drop n).take 1 = [':']) : ':' ∈ s := by
  have h1 : ':' ∈ (s.drop n).take 1 := by rw [h]; simp
  exact List.mem_of_mem_drop (List.mem_of_mem_take h1)

/-- Step A is the identity on colon-free input. -/
theorem stepA_id (s : List Char) (h : ':' ∉ s) : stepA s = s := by
  rw [stepA]
  rw [if_neg]
  intro hcond
  exact h (colon_mem_of_drop_take s _ hcond.2)

/-- Step B is the identity on bracket-free input. -/
theorem stepBAux_id (fuel : Nat) :
    ∀ s : List Char, '[' ∉ s → stepBAux fuel s = s := by
  induction fuel with
  | zero => intro s _; rfl
  | succ f ih =>
    intro s hs
    cases s with
    | nil => rfl
    | cons c rest =>
      rw [stepBAux, if_neg (by intro hc; exact hs (by simp [hc]))]
      rw [ih rest (fun hc => hs (by simp [hc]))]

/-- No keyword match without a colon. -/
theorem findAggKw_none (s : List Char) (h : ':' ∉ s) :
    ∀ kws : List (List Char), findAggKw kws s = none := by
  intro kws
  induction kws with
  | nil => rfl
  | cons kw rest ih =>
    rw [findAggKw, if_neg, ih]
    intro hcond
    exact h (colon_mem_of_drop_take s _ hcond.2)

/-- Step C1 is the identity on colon-free input. -/
theorem stepC1Aux_id (fuel : Nat) :
    ∀ (prev : Option Char) (s : List Char), ':' ∉ s → stepC1Aux fuel prev s = s := by
  induction fuel with
  | zero => intro _ s _; rfl
  | succ f ih =>
    intro prev s hs
    cases s with
    | nil => rfl
    | cons c rest =>
      rw [stepC1Aux]
      rw [show (if boundaryOk prev = true then
          findAggKw aggKeywords (c :: rest) else none) = none from by
        by_cases hb : boundaryOk prev = true
        · rw [if_pos hb]; exact findAggKw_none (c :: rest) hs aggKeywords
        · rw [if_neg hb]]
      rw [ih (some c) rest (fun hc => hs (by simp [hc]))]

/-- Step C2 is the identity on colon-free input. -/
theorem stepC2Aux_id (fuel : Nat) :
    ∀ s : List Char, ':' ∉ s → stepC2Aux fuel s = s := by
  induction fuel with
  | zero => intro s _; rfl
  | succ f ih =>
    intro s hs
    cases s with
    | nil => rfl
    | cons c rest =>
      rw [stepC2Aux, if_neg (by intro hc; exact hs (by simp [hc.1]))]
      rw [ih rest (fun hc => hs (by simp [hc]))]

/-- Step C3 is the identity on colon-free input. -/
theorem stepC3Aux_id (fuel : Nat) :
    ∀ s : List Char, ':' ∉ s → stepC3Aux fuel s = s := by
  induction fuel with
  | zero => intro s _; rfl
  | succ f ih =>
    intro s hs
    cases s with
    | nil => rfl
    | cons c rest =>
      rw [stepC3Aux, if_neg (by intro hc; exact hs (by simp [hc.1]))]
      rw [ih rest (fun hc => hs (by simp [hc]))]

/-- Step D is the identity when none of its target characters occur. -/
theorem stepD_id (s : List Char) (h : ∀ c ∈ s, (stepDChars.contains c) = false) :
    stepD s = s := by
  rw [stepD]
  rw [List.filter_eq_self.mpr]
  intro c hc
  simpa using h c hc

/-- Step E is the identity on a nonempty, splitter-free, `pyStrip`-fixed
input. -/
theorem stepE_id (t : List Char) (hne : t ≠ [])
    (hsplit : ∀ c ∈ t, c ≠ '*' ∧ c ≠ '/') (hstrip : pyStrip t = t) : stepE t = t := by
  rw [stepE, splitMulDiv, splitMulDivAux_no_split t [] hsplit]
  rw [collectParts]
  simp only [List.foldl_cons, List.foldl_nil, List.nil_append, List.reverse_nil]
  rw [hstrip]
  rw [if_pos (by simp [hne])]
  rw [joinSep]

/-- Characters of the cleaned output ruled out by steps D and E. -/
theorem clean_output_chars (s : List Char) (hg : ¬ (s = [] ∨ s = chars "None")) :
    ∀ c ∈ clean_tableau_field_name s,
      ((stepDChars.contains c) = false ∨ c = ',' ∨ c = ' ') ∧
      (c ≠ '*' ∧ c ≠ '/') := by
  intro c hc
  rw [clean_tableau_field_name, if_neg hg] at hc
  rw [stepE] at hc
  rcases mem_joinSep (chars ", ") _ c hc with hsep | hpart
  · have : c = ',' ∨ c = ' ' := by
      rw [show chars ", " = [',', ' '] from rfl] at hsep
      simpa using hsep
    constructor
    · exact Or.inr this
    · rcases this with rfl | rfl <;> exact ⟨by decide, by decide⟩
  · rcases hpart with ⟨p, hp1, hp2⟩
    rcases mem_collectParts _ p hp1 with ⟨p0, hp01, hp02⟩
    subst hp02
    have hc0 : c ∈ p0 := mem_pyStrip p0 c hp2
    rw [splitMulDiv] at hp01
    rcases mem_splitMulDivAux _ [] p0 hp01 c hc0 with ⟨h1, h2⟩
    have hD : c ∈ stepD (stepC3 (stepC2 (stepC1 (stepB (stepA s))))) := by
      rcases h1 with h1 | h1
      · exact h1
      · simp at h1
    constructor
    · rw [stepD] at hD
      have := (List.mem_filter.mp hD).2
      exact Or.inl (by simpa using this)
    · exact h2.resolve_left (by simp)

/-- C8 (amended): cleaning is idempotent on every input whose cleaned
output is nonempty and colon-free — the second pass finds no colon rule to
fire, no bracket, quote or parenthesis to remove, no formula operator to
split on, and nothing to strip. -/
theorem clean_idempotent_of_no_colon (s : List Char)
    (hne : clean_tableau_field_name s ≠ [])
    (hcol : ':' ∉ clean_tableau_field_name s) :
    clean_tableau_field_name (clean_tableau_field_name s) = clean_tableau_field_name s := by
  by_cases hg : s = [] ∨ s = chars "None"
  · have h1 : clean_tableau_field_name s = chars "None" := by
      rw [clean_tableau_field_name, if_pos hg]
    rw [h1]
    decide
  · have hchars := clean_output_chars s hg
    have hband : ∀ c ∈ clean_tableau_field_name s, (stepDChars.contains c) = false := by
      intro c hc
      rcases (hchars c hc).1 with h | h
      · exact h
      · rcases h with rfl | rfl <;> decide
    have hsplit : ∀ c ∈ clean_tableau_field_name s, c ≠ '*' ∧ c ≠ '/' :=
      fun c hc => (hchars c hc).2
    have hbr : '[' ∉ clean_tableau_field_name s := by
      intro hmem
      have := hband '[' hmem
      simp [stepDChars] at this
    have hstrip : pyStrip (clean_tableau_field_name s) = clean_tableau_field_name s := by
      have ht : clean_tableau_field_name s =
          joinSep (chars ", ") (collectParts (splitMulDiv
            (stepD (stepC3 (stepC2 (stepC1 (stepB (stepA s)))))))) := by
        rw [clean_tableau_field_name, if_neg hg, stepE]
      have hps : collectParts (splitMulDiv
          (stepD (stepC3 (stepC2 (stepC1 (stepB (stepA s))))))) ≠ [] := by
        intro hnil
        rw [ht, hnil] at hne
        exact hne rfl
      rw [ht]
      exact joinSep_stripped _ (fun p hp => collectParts_stripped _ p hp) hps
    by_cases hgt : clean_tableau_field_name s = [] ∨ clean_tableau_field_name s = chars "None"
    · rcases hgt with hgt | hgt
      · exact absurd hgt hne
      · rw [hgt]
        decide
    · rw [show clean_tableau_field_name (clean_tableau_field_name s) =
        stepE (stepD (stepC3 (stepC2 (stepC1 (stepB (stepA
          (clean_tableau_field_name s))))))) from by
        rw [clean_tableau_field_name, if_neg hgt]]
      rw [stepA_id _ hcol, stepB, stepBAux_id _ _ hbr, stepC1, stepC1Aux_id _ none _ hcol,
        stepC2, stepC2Aux_id _ _ hcol, stepC3, stepC3Aux_id _ _ hcol, stepD_id _ hband,
        stepE_id _ hne hsplit hstrip]

/-- Witness for the amended C8 theorem at a concrete colon-free input. -/
theorem clean_idempotent_of_no_colon_witness :
    clean_tableau_field_name (clean_tableau_field_name (chars "sum:[Total Capacity]:nk")) =
      clean_tableau_field_name (chars "sum:[Total Capacity]:nk") :=
  clean_idempotent_of_no_colon (chars "sum:[Total Capacity]:nk") (by decide) (by decide)

/-! ### Reconciler deduplication lemmas (C3) -/

/-- Full characterisation of the deduplication fold of
`extract_field_names`: relative to an accumulated state, the fold appends
exactly the first-seen valid items whose keys are new. -/
theorem dedup_fold_spec :
    ∀ (items : List RawItem) (kept : List RawItem) (seen : List (List Char)),
      ∃ add : List RawItem,
        (items.foldl
          (fun st it =>
            if rawItemValid it ∧ !(st.2.contains (fieldNormKey it.field)) then
              (st.1 ++ [it], st.2 ++ [fieldNormKey it.field])
            else st)
          (kept, seen)).1 = kept ++ add ∧
        add.Sublist (items.filter rawItemValid) ∧
        (∀ it ∈ add, rawItemValid it = true ∧ fieldNormKey it.field ∉ seen) ∧
        (add.map (fun it => fieldNormKey it.field)).Nodup ∧
        (∀ k : List Char, k ∉ seen →
          add.find? (fun it => fieldNormKey it.field == k) =
            (items.filter rawItemValid).find? (fun it => fieldNormKey it.field == k)) := by
  intro items
  induction items with
  | nil =>
    intro kept seen
    exact ⟨[], by simp, by simp, by simp, by simp, by simp⟩
  | cons it rest ih =>
    intro kept seen
    by_cases hcond : rawItemValid it ∧ !(seen.contains (fieldNormKey it.field))
    · rcases ih (kept ++ [it]) (seen ++ [fieldNormKey it.field]) with
        ⟨add2, ha1, ha2, ha3, ha4, ha5⟩
      refine ⟨it :: add2, ?_, ?_, ?_, ?_, ?_⟩
      · simp only [List.foldl_cons, if_pos hcond]
        rw [ha1, List.append_assoc]
        rfl
      · rw [List.filter_cons, if_pos hcond.1]
        exact ha2.cons₂ it
      · intro it2 hit2
        rcases List.mem_cons.mp hit2 with h | h
        · subst h
          refine ⟨hcond.1, ?_⟩
          have := hcond.2
          simp only [Bool.not_eq_true'] at this
          simpa using this
        · rcases ha3 it2 h with ⟨hv, hns⟩
          exact ⟨hv, fun hmem => hns (by simp [hmem])⟩
      · rw [List.map_cons]
        refine List.nodup_cons.mpr ⟨?_, ha4⟩
        intro hmem
        rcases List.mem_map.mp hmem with ⟨it2, hit2, hk⟩
        exact (ha3 it2 hit2).2 (by simp [hk])
      · intro k hk
        rw [List.filter_cons, if_pos hcond.1]
        by_cases hkeq : fieldNormKey it.field = k
        · rw [List.find?_cons, List.find?_cons]
          simp [hkeq]
        · rw [List.find?_cons, List.find?_cons]
          have hne : (fieldNormKey it.field == k) = false := by simpa using hkeq
          rw [hne]
          refine ha5 k ?_
          intro hmem
          rcases List.mem_append.mp hmem with h | h
          · exact hk h
          · exact hkeq (List.mem_singleton.mp h).symm
    · rcases ih kept seen with ⟨add2, ha1, ha2, ha3, ha4, ha5⟩
      refine ⟨add2, ?_, ?_, ha3, ha4, ?_⟩
      · simp only [List.foldl_cons, if_neg hcond]
        exact ha1
      · by_cases hval : rawItemValid it
        · rw [List.filter_cons, if_pos hval]
          exact ha2.cons it
        · rw [List.filter_cons, if_neg (by simpa using hval)]
          exact ha2
      · intro k hk
        by_cases hval : rawItemValid it
        · have hseen : seen.contains (fieldNormKey it.field) = true := by
            rcases Decidable.em (seen.contains (fieldNormKey it.field) = true) with h | h
            · exact h
            · exact absurd ⟨hval, by simpa using h⟩ hcond
          have hkeq : (fieldNormKey it.field == k) = false := by
            have hmem : fieldNormKey it.field ∈ seen := by simpa using hseen
            have : fieldNormKey it.field ≠ k := fun h => hk (h ▸ hmem)
            simpa using this
          rw [List.filter_cons, if_pos hval, List.find?_cons, hkeq]
          exact ha5 k hk
        · rw [List.filter_cons, if_neg (by simpa using hval)]
          exact ha5 k hk

/-- C3: `extract_field_names` keeps at most one entry per deduplication key
(lowercase, spaces/hyphens/underscores removed), the output is a
subsequence of the valid raw mentions (insertion order preserved), the
entry kept for each key is the first valid occurrence, entries with empty
or `none` field text are excluded, and on the documented example the
output is `["Sales", "Profit"]` with `display_name_map["Profit"] = "Net
Profit"`. -/
theorem extract_field_names_dedup_first_seen (resp : GPTResponse) :
    ((extract_field_names resp).1.map fieldNormKey).Nodup ∧
    (extract_field_names resp).1.Sublist (validRawFields resp) ∧
    (∀ k : List Char,
      (extract_field_names resp).1.find? (fun f => fieldNormKey f == k) =
        (validRawFields resp).find? (fun f => fieldNormKey f == k)) ∧
    (extract_field_names resp).1.all
      (fun f => f ≠ [] && f.map Char.toLower ≠ chars "none") = true ∧
    extract_field_names (GPTResponse.flat
      [GPTItem.obj (chars "Sales") none, GPTItem.obj (chars "sales ") none,
       GPTItem.obj (chars "Profit") (some (chars "Net Profit"))]) =
      ([chars "Sales", chars "Profit"],
       [(chars "Sales", none), (chars "Profit", some (chars "Net Profit"))]) := by
  rcases dedup_fold_spec (collectRawItems resp) [] [] with ⟨add, ha1, ha2, ha3, ha4, ha5⟩
  have hfin : dedupRawItems (collectRawItems resp) = add := by
    rw [dedupRawItems, ha1, List.nil_append]
  have hnames : (extract_field_names resp).1 = add.map (fun it => it.field) := by
    rw [extract_field_names, hfin]
  refine ⟨?_, ?_, ?_, ?_, by decide⟩
  · rw [hnames, List.map_map]
    exact ha4
  · rw [hnames, validRawFields]
    exact ha2.map (fun it => it.field)
  · intro k
    rw [hnames, validRawFields]
    rw [List.find?_map, List.find?_map]
    exact congrArg (Option.map (fun it => it.field)) (ha5 k (by simp))
  · rw [hnames]
    rw [List.all_eq_true]
    intro f hf
    rcases List.mem_map.mp hf with ⟨it, hit, hfe⟩
    subst hfe
    exact (ha3 it hit).1

/-! ### Edge-map union lemmas (C1) -/

theorem lookupA_setA {β : Type} (m : List (List Char × β)) (k : List Char) (v : β)
    (k' : List Char) :
    lookupA (setA m k v) k' = if k' = k then some v else lookupA m k' := by
  induction m with
  | nil =>
    simp only [setA, lookupA]
    by_cases h : k = k'
    · subst h; simp
    · rw [if_neg h, if_neg (fun hh => h hh.symm)]
  | cons p rest ih =>
    simp only [setA]
    by_cases hp : p.1 = k
    · rw [if_pos hp]
      simp only [lookupA]
      by_cases hk : k = k'
      · subst hk; simp
      · rw [if_neg hk, if_neg (fun hh => hk hh.symm), if_neg (hp ▸ hk)]
    · rw [if_neg hp]
      simp only [lookupA]
      by_cases hpk : p.1 = k'
      · rw [if_pos hpk, if_pos hpk, if_neg (fun hh : k' = k => hp (hpk.trans hh))]
      · rw [if_neg hpk, if_neg hpk, ih]

theorem contains_titles_iff (cur : List RelEdge) (t : List Char) :
    (cur.map (fun c => c.title)).contains t = true ↔ t ∈ cur.map (fun c => c.title) :=
  List.elem_iff

theorem dedupAppendEdge_idem (cur : List RelEdge) (e : RelEdge) :
    dedupAppendEdge (dedupAppendEdge cur e) e = dedupAppendEdge cur e := by
  by_cases h : (cur.map (fun c => c.title)).contains e.title = true
  · simp only [dedupAppendEdge, if_pos h, h, if_pos]
  · simp only [dedupAppendEdge, if_neg h]
    rw [if_pos]
    rw [contains_titles_iff]
    simp

theorem appendEdgeOnce_idem (cur : List RelEdge) (e : RelEdge) :
    appendEdgeOnce (appendEdgeOnce cur e) e = appendEdgeOnce cur e := by
  by_cases hc : cur.contains e = true
  · have h1 : appendEdgeOnce cur e = cur := by rw [appendEdgeOnce, if_pos hc]
    rw [h1, appendEdgeOnce, if_pos hc]
  · have h1 : appendEdgeOnce cur e = cur ++ [e] := by rw [appendEdgeOnce, if_neg hc]
    rw [h1, appendEdgeOnce, if_pos (by rw [List.elem_iff]; simp)]

theorem titles_dedupAppendEdge_mem (cur : List RelEdge) (e : RelEdge) (t : List Char) :
    t ∈ (dedupAppendEdge cur e).map (fun c => c.title) ↔
      t ∈ cur.map (fun c => c.title) ∨ t = e.title := by
  by_cases h : (cur.map (fun c => c.title)).contains e.title = true
  · rw [dedupAppendEdge, if_pos h]
    constructor
    · exact Or.inl
    · rintro (h1 | rfl)
      · exact h1
      · exact (contains_titles_iff cur _).mp h
  · rw [dedupAppendEdge, if_neg h]
    simp

theorem titles_dedupAppendEdge_nodup (cur : List RelEdge) (e : RelEdge)
    (h : (cur.map (fun c => c.title)).Nodup) :
    ((dedupAppendEdge cur e).map (fun c => c.title)).Nodup := by
  by_cases hc : (cur.map (fun c => c.title)).contains e.title = true
  · rwa [dedupAppendEdge, if_pos hc]
  · rw [dedupAppendEdge, if_neg hc]
    rw [contains_titles_iff] at hc
    simp at hc
    simp [List.nodup_append, h]
    intro x hx hxe
    exact hc x hx hxe

theorem mergeLedgerEdges_cons (cur : List RelEdge) (e : RelEdge) (es : List RelEdge) :
    mergeLedgerEdges cur (e :: es) = mergeLedgerEdges (dedupAppendEdge cur e) es := rfl

theorem mergeLedgerEdges_nil (cur : List RelEdge) : mergeLedgerEdges cur [] = cur := rfl

theorem titles_mergeLedgerEdges_mem (t : List Char) :
    ∀ (es cur : List RelEdge),
      t ∈ (mergeLedgerEdges cur es).map (fun c => c.title) ↔
        t ∈ cur.map (fun c => c.title) ∨ t ∈ es.map (fun c => c.title) := by
  intro es
  induction es with
  | nil => intro cur; simp [mergeLedgerEdges]
  | cons e es ih =>
    intro cur
    rw [mergeLedgerEdges_cons, ih, titles_dedupAppendEdge_mem]
    simp only [List.map_cons, List.mem_cons]
    tauto

theorem titles_mergeLedgerEdges_nodup :
    ∀ (es cur : List RelEdge), (cur.map (fun c => c.title)).Nodup →
      ((mergeLedgerEdges cur es).map (fun c => c.title)).Nodup := by
  intro es
  induction es with
  | nil => intro cur h; exact h
  | cons e es ih =>
    intro cur h
    rw [mergeLedgerEdges_cons]
    exact ih _ (titles_dedupAppendEdge_nodup cur e h)

theorem lookupA_map_val {β γ : Type} (g : List Char → β → γ)
    (m : List (List Char × β)) (k : List Char) :
    lookupA (m.map (fun p => (p.1, g p.1 p.2))) k = (lookupA m k).map (g k) := by
  induction m with
  | nil => rfl
  | cons p rest ih =>
    simp only [List.map_cons, lookupA]
    by_cases h : p.1 = k
    · subst h; simp
    · rw [if_neg h, if_neg h, ih]

theorem contains_cons_ne (f k : List Char) (fs : List (List Char)) (h : ¬ f = k) :
    (f :: fs).contains k = fs.contains k := by
  rw [List.contains_cons]
  have hb : (k == f) = false := beq_eq_false_iff_ne.mpr (fun hh => h hh.symm)
  rw [hb, Bool.false_or]

theorem contains_cons_self (f : List Char) (fs : List (List Char)) :
    (f :: fs).contains f = true := by
  simp

theorem fieldFold_lookup (title url : List Char) :
    ∀ (fields : List (List Char)) (m : List (List Char × List RelEdge)) (k : List Char),
      lookupA
        (fields.foldl
          (fun m f =>
            setA m f (dedupAppendEdge ((lookupA m f).getD []) ⟨title, url⟩)) m) k =
        if fields.contains k = true then
          some (dedupAppendEdge ((lookupA m k).getD []) ⟨title, url⟩)
        else lookupA m k := by
  intro fields
  induction fields with
  | nil => intro m k; simp
  | cons f fs ih =>
    intro m k
    rw [List.foldl_cons, ih, lookupA_setA]
    by_cases hfk : k = f
    · subst hfk
      rw [if_pos (contains_cons_self _ _)]
      simp only [eq_self_iff_true, if_true, Option.getD_some]
      by_cases hc : fs.contains k = true
      · rw [if_pos hc, dedupAppendEdge_idem]
      · rw [if_neg hc]
    · rw [contains_cons_ne f k fs (fun hh => hfk hh.symm)]
      simp only [if_neg hfk]

theorem currentFieldEdges_cons (cr : ChartResult) (rest : List ChartResult) (k : List Char) :
    currentFieldEdges (cr :: rest) k =
      if cr.status == chars "success" && cr.chart_intercom_url != [] &&
          cr.field_names.contains k then
        (⟨cr.chart_title, cr.chart_intercom_url⟩ : RelEdge) :: currentFieldEdges rest k
      else currentFieldEdges rest k := by
  rw [currentFieldEdges, currentFieldEdges, List.filter_cons]
  by_cases h : (cr.status == chars "success" && cr.chart_intercom_url != [] &&
      cr.field_names.contains k) = true
  · rw [if_pos h, if_pos h, List.map_cons]
  · rw [if_neg h, if_neg h]

theorem fieldPhase1_go :
    ∀ (pcs : List ChartResult) (m : List (List Char × List RelEdge)) (k : List Char),
      lookupA
        (pcs.foldl
          (fun m cr =>
            if cr.status = chars "success" then
              if cr.chart_intercom_url = [] then m
              else
                cr.field_names.foldl
                  (fun m f =>
                    setA m f (dedupAppendEdge ((lookupA m f).getD [])
                      ⟨cr.chart_title, cr.chart_intercom_url⟩))
                  m
            else m)
          m) k =
        if currentFieldEdges pcs k = [] then lookupA m k
        else some (mergeLedgerEdges ((lookupA m k).getD []) (currentFieldEdges pcs k)) := by
  intro pcs
  induction pcs with
  | nil => intro m k; simp [currentFieldEdges]
  | cons cr rest ih =>
    intro m k
    rw [List.foldl_cons]
    by_cases hs : cr.status = chars "success"
    · by_cases hu : cr.chart_intercom_url = []
      · have hcf : currentFieldEdges (cr :: rest) k = currentFieldEdges rest k := by
          rw [currentFieldEdges_cons]
          have hc : (cr.status == chars "success" && cr.chart_intercom_url != [] &&
              cr.field_names.contains k) = false := by
            rw [hu, bne_self_eq_false, Bool.and_false, Bool.false_and]
          rw [hc]
          simp
        rw [if_pos hs, if_pos hu, ih, hcf]
      · by_cases hf : cr.field_names.contains k = true
        · have hcf : currentFieldEdges (cr :: rest) k =
              (⟨cr.chart_title, cr.chart_intercom_url⟩ : RelEdge) ::
                currentFieldEdges rest k := by
            rw [currentFieldEdges_cons]
            have hc : (cr.status == chars "success" && cr.chart_intercom_url != [] &&
                cr.field_names.contains k) = true := by
              rw [beq_iff_eq.mpr hs, bne_iff_ne.mpr hu, hf]
              rfl
            rw [hc]
            simp
          rw [if_pos hs, if_neg hu, ih, fieldFold_lookup, if_pos hf, hcf]
          simp only [Option.getD_some]
          rw [if_neg (List.cons_ne_nil _ _), mergeLedgerEdges_cons]
          by_cases he : currentFieldEdges rest k = []
          · rw [if_pos he, he, mergeLedgerEdges_nil]
          · rw [if_neg he]
        · have hcf : currentFieldEdges (cr :: rest) k = currentFieldEdges rest k := by
            rw [currentFieldEdges_cons]
            have hc : (cr.status == chars "success" && cr.chart_intercom_url != [] &&
                cr.field_names.contains k) = false := by
              rw [Bool.eq_false_iff.mpr hf, Bool.and_false]
            rw [hc]
            simp
          rw [if_pos hs, if_neg hu, ih, fieldFold_lookup, if_neg hf, hcf]
    · have hcf : currentFieldEdges (cr :: rest) k = currentFieldEdges rest k := by
        rw [currentFieldEdges_cons]
        have hc : (cr.status == chars "success" && cr.chart_intercom_url != [] &&
            cr.field_names.contains k) = false := by
          rw [beq_eq_false_iff_ne.mpr hs, Bool.false_and, Bool.false_and]
        rw [hc]
        simp
      rw [if_neg hs, ih, hcf]

theorem fieldChartsPhase1_lookup (pcs : List ChartResult) (k : List Char) :
    lookupA (fieldChartsPhase1 pcs) k =
      if currentFieldEdges pcs k = [] then none
      else some (mergeLedgerEdges [] (currentFieldEdges pcs k)) := by
  rw [fieldChartsPhase1, fieldPhase1_go pcs [] k]
  rfl

theorem currentFieldEdges_titles (pcs : List ChartResult) (k : List Char) :
    (currentFieldEdges pcs k).map (fun c => c.title) = currentFieldChartTitles pcs k := by
  rw [currentFieldEdges, currentFieldChartTitles, List.map_map]
  rfl

theorem chartFold_go (aT aU : List Char) :
    ∀ (pcs : List ChartResult) (m : List (List Char × List RelEdge)) (k : List Char),
      lookupA
        (pcs.foldl
          (fun m cr =>
            if cr.status = chars "success" then
              setA m cr.chart_title
                (appendEdgeOnce ((lookupA m cr.chart_title).getD []) ⟨aT, aU⟩)
            else m)
          m) k =
        if currentRunHasChart pcs k then
          some (appendEdgeOnce ((lookupA m k).getD []) ⟨aT, aU⟩)
        else lookupA m k := by
  intro pcs
  induction pcs with
  | nil => intro m k; simp [currentRunHasChart]
  | cons cr rest ih =>
    intro m k
    rw [List.foldl_cons]
    have hhc : currentRunHasChart (cr :: rest) k =
        ((cr.status == chars "success" && cr.chart_title == k) ||
          currentRunHasChart rest k) := by
      rw [currentRunHasChart, currentRunHasChart, List.any_cons]
    by_cases hs : cr.status = chars "success"
    · rw [if_pos hs, ih]
      by_cases ht : cr.chart_title = k
      · have hcur : currentRunHasChart (cr :: rest) k = true := by
          rw [hhc]
          simp [hs, ht]
        rw [if_pos hcur]
        subst ht
        rw [lookupA_setA]
        simp only [eq_self_iff_true, if_true, Option.getD_some]
        by_cases hr : currentRunHasChart rest cr.chart_title = true
        · rw [if_pos hr, appendEdgeOnce_idem]
        · rw [if_neg hr]
      · rw [lookupA_setA]
        simp only [if_neg (fun hh : k = cr.chart_title => ht hh.symm)]
        rw [hhc]
        have hb : (cr.status == chars "success" && cr.chart_title == k) = false := by
          simp [ht]
        rw [hb, Bool.false_or]
    · rw [if_neg hs, ih, hhc]
      have hb : (cr.status == chars "success" && cr.chart_title == k) = false := by
        simp [hs]
      rw [hb, Bool.false_or]

theorem chartArticlesPhase1_lookup (pcs : List ChartResult) (aT aU : List Char)
    (k : List Char) :
    lookupA (chartArticlesPhase1 pcs aT aU) k =
      if currentRunHasChart pcs k then some [(⟨aT, aU⟩ : RelEdge)] else none := by
  rw [chartArticlesPhase1, chartFold_go aT aU pcs [] k]
  rfl

/-- C1: for every list of processed chart results and every ledger state,
the edge maps built by `build_field_to_charts_map` and
`build_chart_to_articles_map` are, per key, the union of current-run edges
and previously recorded ledger edges deduplicated by the edge's title: the
titles of any map entry are free of duplicates, and a title lies in the
entry exactly when the current run contributes it (for the field map, a
successfully processed chart with a nonempty URL that uses the field; for
the chart map, the current article's title when the run has a successful
chart under that key) or the ledger query for the key succeeded and already
records it. -/
theorem edge_maps_union_dedup_by_title
    (processed_charts : List ChartResult)
    (fieldLedger chartLedger : List Char → LedgerResp)
    (article_title article_url : List Char)
    (k : List Char) (entry : List RelEdge) :
    (lookupA (build_field_to_charts_map processed_charts fieldLedger) k = some entry →
      ((entry.map (fun c => c.title)).Nodup ∧
       ∀ t : List Char,
         t ∈ entry.map (fun c => c.title) ↔
           (t ∈ currentFieldChartTitles processed_charts k ∨
            ((fieldLedger k).success = true ∧
             t ∈ (fieldLedger k).edges.map (fun c => c.title))))) ∧
    (lookupA (build_chart_to_articles_map processed_charts article_title article_url
        chartLedger) k = some entry →
      ((entry.map (fun c => c.title)).Nodup ∧
       ∀ t : List Char,
         t ∈ entry.map (fun c => c.title) ↔
           ((currentRunHasChart processed_charts k = true ∧ t = article_title) ∨
            ((chartLedger k).success = true ∧
             t ∈ (chartLedger k).edges.map (fun c => c.title))))) := by
  constructor
  · intro h
    have h2 := (lookupA_map_val
      (fun a b =>
        if (fieldLedger a).success then mergeLedgerEdges b (fieldLedger a).edges else b)
      (fieldChartsPhase1 processed_charts) k).symm.trans h
    rw [fieldChartsPhase1_lookup] at h2
    by_cases he : currentFieldEdges processed_charts k = []
    · rw [if_pos he] at h2
      exact absurd h2 (by simp)
    · rw [if_neg he] at h2
      simp only [Option.map_some'] at h2
      have hentry := (Option.some.injEq _ _).mp h2.symm
      subst hentry
      by_cases hsucc : (fieldLedger k).success = true
      · rw [if_pos hsucc]
        constructor
        · exact titles_mergeLedgerEdges_nodup _ _
            (titles_mergeLedgerEdges_nodup _ [] (by simp))
        · intro t
          rw [titles_mergeLedgerEdges_mem, titles_mergeLedgerEdges_mem,
            currentFieldEdges_titles]
          simp [hsucc]
      · rw [if_neg hsucc]
        constructor
        · exact titles_mergeLedgerEdges_nodup _ [] (by simp)
        · intro t
          rw [titles_mergeLedgerEdges_mem, currentFieldEdges_titles]
          simp [hsucc]
  · intro h
    have h2 := (lookupA_map_val
      (fun a b =>
        if (chartLedger a).success then mergeLedgerEdges b (chartLedger a).edges else b)
      (chartArticlesPhase1 processed_charts article_title article_url) k).symm.trans h
    rw [chartArticlesPhase1_lookup] at h2
    by_cases hrun : currentRunHasChart processed_charts k = true
    · rw [if_pos hrun] at h2
      simp only [Option.map_some'] at h2
      have hentry := (Option.some.injEq _ _).mp h2.symm
      subst hentry
      by_cases hsucc : (chartLedger k).success = true
      · rw [if_pos hsucc]
        constructor
        · exact titles_mergeLedgerEdges_nodup _ _ (by simp)
        · intro t
          rw [titles_mergeLedgerEdges_mem]
          simp [hsucc, hrun]
      · rw [if_neg hsucc]
        constructor
        · simp
        · intro t
          simp [hsucc, hrun]
    · rw [if_neg hrun] at h2
      exact absurd h2 (by simp)

/-- Closed instance of the C1 theorem: the duplicated chart `C` run merged
with the succeeding ledgers yields duplicate-free entries containing both
the current-run and the ledger titles. -/
theorem edge_maps_union_dedup_by_title_witness :
    ((([⟨chars "C", chars "u"⟩, ⟨chars "Y", chars "yu"⟩] : List RelEdge).map
        (fun c => c.title)).Nodup ∧
      (chars "Y" ∈ (([⟨chars "C", chars "u"⟩, ⟨chars "Y", chars "yu"⟩] :
          List RelEdge).map (fun c => c.title)) ↔
        (chars "Y" ∈ currentFieldChartTitles pcsW (chars "f") ∨
         ((fieldLedgerW (chars "f")).success = true ∧
          chars "Y" ∈ (fieldLedgerW (chars "f")).edges.map (fun c => c.title))))) ∧
    ((([⟨chars "X", chars "xu"⟩, ⟨chars "Y", chars "yu"⟩] : List RelEdge).map
        (fun c => c.title)).Nodup ∧
      (chars "X" ∈ (([⟨chars "X", chars "xu"⟩, ⟨chars "Y", chars "yu"⟩] :
          List RelEdge).map (fun c => c.title)) ↔
        ((currentRunHasChart pcsW (chars "C") = true ∧ chars "X" = chars "X") ∨
         ((chartLedgerW (chars "C")).success = true ∧
          chars "X" ∈ (chartLedgerW (chars "C")).edges.map (fun c => c.title))))) := by
  constructor
  · have h := (edge_maps_union_dedup_by_title pcsW fieldLedgerW chartLedgerW
      (chars "X") (chars "xu") (chars "f")
      [⟨chars "C", chars "u"⟩, ⟨chars "Y", chars "yu"⟩]).1 (by decide)
    exact ⟨h.1, h.2 (chars "Y")⟩
  · have h := (edge_maps_union_dedup_by_title pcsW fieldLedgerW chartLedgerW
      (chars "X") (chars "xu") (chars "C")
      [⟨chars "X", chars "xu"⟩, ⟨chars "Y", chars "yu"⟩]).2 (by decide)
    exact ⟨h.1, h.2 (chars "X")⟩

/-! ### Propagation-loop lemmas (C9) -/

theorem fieldEligible_iff (m : List (List Char × List RelEdge))
    (p : List Char × FieldUpdateInfo) :
    fieldEligible m p = true ↔
      ((lookupA m p.1).getD [] ≠ [] ∧ p.2.article_id ≠ [] ∧ p.2.old_html ≠ []) := by
  rw [fieldEligible]
  simp [List.isEmpty_iff, and_assoc]

theorem update_fields_step (m : List (List Char × List RelEdge))
    (iu : List Char → List Char → Bool) (acc : PropResult)
    (p : List Char × FieldUpdateInfo) :
    update_data_fields_body m iu acc p =
    (if fieldEligible m p = true then
      if iu p.2.article_id (fieldNewHtml m p) = true then
        ⟨acc.updated + 1, acc.failed, acc.skipped, acc.logs ++ [fieldLogEntry m p]⟩
      else ⟨acc.updated, acc.failed + 1, acc.skipped, acc.logs⟩
    else acc) := by
  simp only [update_data_fields_body, fieldNewHtml, fieldLogEntry, fieldEligible_iff]

theorem update_fields_go (m : List (List Char × List RelEdge))
    (iu : List Char → List Char → Bool) :
    ∀ (fields : List (List Char × FieldUpdateInfo)) (acc : PropResult),
      fields.foldl (update_data_fields_body m iu) acc =
      ⟨acc.updated + fields.countP
          (fun p => fieldEligible m p && iu p.2.article_id (fieldNewHtml m p)),
       acc.failed + fields.countP
          (fun p => fieldEligible m p && !(iu p.2.article_id (fieldNewHtml m p))),
       acc.skipped,
       acc.logs ++ fields.filterMap
          (fun p =>
            if fieldEligible m p && iu p.2.article_id (fieldNewHtml m p) then
              some (fieldLogEntry m p)
            else none)⟩ := by
  intro fields
  induction fields with
  | nil => intro acc; cases acc; simp
  | cons p ps ih =>
    intro acc
    rw [List.foldl_cons, update_fields_step m iu acc p]
    by_cases he : fieldEligible m p = true
    · by_cases hok : iu p.2.article_id (fieldNewHtml m p) = true
      · rw [if_pos he, if_pos hok, ih]
        simp [List.countP_cons, List.filterMap_cons, he, hok]
        omega
      · rw [if_pos he, if_neg hok, ih]
        simp [List.countP_cons, List.filterMap_cons, he,
          Bool.eq_false_iff.mpr hok]
        omega
    · rw [if_neg he, ih]
      simp [List.countP_cons, List.filterMap_cons, Bool.eq_false_iff.mpr he]

theorem update_charts_step (cm : List (List Char × List RelEdge))
    (lookup : List Char → LookupResp) (iu : List Char → List Char → Bool)
    (acc : PropResult) (cr : ChartUpdInput) :
    update_charts_body cm lookup iu acc cr =
      (if cr.status = chars "success" ∨ cr.status = chars "skipped" then
        match chartOutcome cm lookup iu cr with
        | none => ⟨acc.updated, acc.failed, acc.skipped + 1, acc.logs⟩
        | some (b, le) =>
          if b then ⟨acc.updated + 1, acc.failed, acc.skipped, acc.logs ++ [le]⟩
          else ⟨acc.updated, acc.failed + 1, acc.skipped, acc.logs⟩
      else acc) := by
  by_cases hsv : cr.status = chars "success"
  · rw [if_pos (Or.inl hsv)]
    by_cases hd : cr.chart_html = [] ∨ cr.chart_article_id = []
    · simp [update_charts_body, chartOutcome, chartData, hsv, hd]
    · by_cases hrel : (lookupA cm cr.nested_title).getD [] = []
      · simp [update_charts_body, chartOutcome, chartData, hsv, hd, hrel]
      · by_cases hok : iu cr.chart_article_id
            (inject_related_articles_to_chart_html cr.chart_html
              (((lookupA cm cr.nested_title).getD []).map (fun a => a.title))
              (((lookupA cm cr.nested_title).getD []).map (fun a => a.url))) = true
        · simp [update_charts_body, chartOutcome, chartData, hsv, hd, hrel, hok]
        · simp [update_charts_body, chartOutcome, chartData, hsv, hd, hrel,
            Bool.eq_false_iff.mpr hok]
  · by_cases hsk : cr.status = chars "skipped"
    · rw [if_pos (Or.inr hsk)]
      cases hcn : cr.chart_name with
      | none =>
        simp only [update_charts_body, chartOutcome, chartData, hcn,
          eq_false hsv, eq_true hsk, beq_eq_false_iff_ne.mpr hsv,
          beq_iff_eq.mpr hsk, ne_eq, not_false_eq_true, true_and, if_false, if_true,
          false_or, not_true, Bool.false_eq_true]
        generalize cr.nested_title = t
        by_cases hte : t = []
        · simp [hte]
        · by_cases hfound : (lookup t).found = true
          · by_cases hd : (lookup t).html = [] ∨ (lookup t).intercom_id = []
            · simp [hte, hfound, hd]
            · by_cases hrel : (lookupA cm t).getD [] = []
              · simp [hte, hfound, hd, hrel]
              · by_cases hok : iu (lookup t).intercom_id
                    (inject_related_articles_to_chart_html (lookup t).html
                      (((lookupA cm t).getD []).map (fun a => a.title))
                      (((lookupA cm t).getD []).map (fun a => a.url))) = true
                · simp [hte, hfound, hd, hrel, hok]
                · simp [hte, hfound, hd, hrel, Bool.eq_false_iff.mpr hok]
          · simp [hte, Bool.eq_false_iff.mpr hfound]
      | some n =>
        by_cases hn : n = []
        · simp only [update_charts_body, chartOutcome, chartData, hcn, hn,
            eq_false hsv, eq_true hsk, beq_eq_false_iff_ne.mpr hsv,
            beq_iff_eq.mpr hsk, ne_eq, not_false_eq_true, true_and, if_false, if_true,
            false_or, not_true, Bool.false_eq_true]
          generalize cr.nested_title = t
          by_cases hte : t = []
          · simp [hte]
          · by_cases hfound : (lookup t).found = true
            · by_cases hd : (lookup t).html = [] ∨ (lookup t).intercom_id = []
              · simp [hte, hfound, hd]
              · by_cases hrel : (lookupA cm t).getD [] = []
                · simp [hte, hfound, hd, hrel]
                · by_cases hok : iu (lookup t).intercom_id
                      (inject_related_articles_to_chart_html (lookup t).html
                        (((lookupA cm t).getD []).map (fun a => a.title))
                        (((lookupA cm t).getD []).map (fun a => a.url))) = true
                  · simp [hte, hfound, hd, hrel, hok]
                  · simp [hte, hfound, hd, hrel, Bool.eq_false_iff.mpr hok]
            · simp [hte, Bool.eq_false_iff.mpr hfound]
        · simp only [update_charts_body, chartOutcome, chartData, hcn, hn,
            eq_false hsv, eq_true hsk, beq_eq_false_iff_ne.mpr hsv,
            beq_iff_eq.mpr hsk, ne_eq, not_false_eq_true, true_and, if_false, if_true,
            false_or, not_true, Bool.false_eq_true]
          generalize n = t
          by_cases hfound : (lookup t).found = true
          · by_cases hd : (lookup t).html = [] ∨ (lookup t).intercom_id = []
            · simp [hfound, hd]
            · by_cases hrel : (lookupA cm t).getD [] = []
              · simp [hfound, hd, hrel]
              · by_cases hok : iu (lookup t).intercom_id
                    (inject_related_articles_to_chart_html (lookup t).html
                      (((lookupA cm t).getD []).map (fun a => a.title))
                      (((lookupA cm t).getD []).map (fun a => a.url))) = true
                · simp [hfound, hd, hrel, hok]
                · simp [hfound, hd, hrel, Bool.eq_false_iff.mpr hok]
          · simp [Bool.eq_false_iff.mpr hfound]
    · rw [if_neg (fun h => h.elim hsv hsk)]
      simp [update_charts_body, hsv, hsk]

theorem update_charts_go (cm : List (List Char × List RelEdge))
    (lookup : List Char → LookupResp) (iu : List Char → List Char → Bool) :
    ∀ (charts : List ChartUpdInput) (acc : PropResult),
      charts.foldl (update_charts_body cm lookup iu) acc =
      ⟨acc.updated + charts.countP
          (fun cr => match chartOutcome cm lookup iu cr with
            | some (b, _) => b
            | none => false),
       acc.failed + charts.countP
          (fun cr => match chartOutcome cm lookup iu cr with
            | some (b, _) => !b
            | none => false),
       acc.skipped + charts.countP
          (fun cr => (cr.status == chars "success" || cr.status == chars "skipped") &&
            (chartOutcome cm lookup iu cr).isNone),
       acc.logs ++ charts.filterMap
          (fun cr => match chartOutcome cm lookup iu cr with
            | some (true, le) => some le
            | _ => none)⟩ := by
  intro charts
  induction charts with
  | nil => intro acc; cases acc; simp
  | cons cr crs ih =>
    intro acc
    rw [List.foldl_cons, update_charts_step cm lookup iu acc cr]
    by_cases hv : cr.status = chars "success" ∨ cr.status = chars "skipped"
    · rw [if_pos hv]
      have hvb : (cr.status == chars "success" || cr.status == chars "skipped") = true := by
        rcases hv with h | h <;> simp [h]
      cases ho : chartOutcome cm lookup iu cr with
      | none =>
        simp only [ho]
        rw [ih]
        simp [List.countP_cons, List.filterMap_cons, ho, hvb]
        omega
      | some bl =>
        rcases bl with ⟨b, le⟩
        cases b with
        | true =>
          simp only [ho, if_pos rfl]
          rw [ih]
          simp [List.countP_cons, List.filterMap_cons, ho, hvb, List.append_assoc]
          omega
        | false =>
          simp only [ho, Bool.false_eq_true, if_false]
          rw [ih]
          simp [List.countP_cons, List.filterMap_cons, ho, hvb]
          omega
    · rw [if_neg hv]
      rw [ih]
      have hsv : ¬ cr.status = chars "success" := fun h => hv (Or.inl h)
      have hsk : ¬ cr.status = chars "skipped" := fun h => hv (Or.inr h)
      have ho : chartOutcome cm lookup iu cr = none := by
        simp [chartOutcome, chartData, beq_eq_false_iff_ne.mpr hsv,
          beq_eq_false_iff_ne.mpr hsk]
      have hvb : (cr.status == chars "success" || cr.status == chars "skipped") = false := by
        simp [beq_eq_false_iff_ne.mpr hsv, beq_eq_false_iff_ne.mpr hsk]
      simp [List.countP_cons, List.filterMap_cons, ho, hvb]

/-- C9: in both propagation loops the ledger write happens only if the
remote Intercom update for that same object returned success, a failed
remote update is counted as failed with no ledger write, and one object's
outcome never blocks the remaining objects: the result of
`update_data_fields_loop` and of `update_charts_loop` is characterized
element-by-element over the whole input list — the journal of ledger
writes is exactly the sublist of per-object rows whose Intercom verdict
was success, and the updated/failed/skipped counters are the counts of
the corresponding per-object outcomes. -/
theorem ledger_write_only_on_intercom_success
    (field_to_charts_map : List (List Char × List RelEdge))
    (fields_to_update : List (List Char × FieldUpdateInfo))
    (chart_to_articles_map : List (List Char × List RelEdge))
    (all_charts : List ChartUpdInput)
    (lookup : List Char → LookupResp)
    (intercom_update : List Char → List Char → Bool) :
    (update_data_fields_loop field_to_charts_map fields_to_update intercom_update).logs =
      fields_to_update.filterMap
        (fun p =>
          if fieldEligible field_to_charts_map p &&
              intercom_update p.2.article_id (fieldNewHtml field_to_charts_map p) then
            some (fieldLogEntry field_to_charts_map p)
          else none) ∧
    (update_data_fields_loop field_to_charts_map fields_to_update intercom_update).updated =
      fields_to_update.countP
        (fun p => fieldEligible field_to_charts_map p &&
          intercom_update p.2.article_id (fieldNewHtml field_to_charts_map p)) ∧
    (update_data_fields_loop field_to_charts_map fields_to_update intercom_update).failed =
      fields_to_update.countP
        (fun p => fieldEligible field_to_charts_map p &&
          !(intercom_update p.2.article_id (fieldNewHtml field_to_charts_map p))) ∧
    (update_data_fields_loop field_to_charts_map fields_to_update intercom_update).skipped = 0 ∧
    (update_charts_loop chart_to_articles_map all_charts lookup intercom_update).logs =
      all_charts.filterMap
        (fun cr =>
          match chartOutcome chart_to_articles_map lookup intercom_update cr with
          | some (true, le) => some le
          | _ => none) ∧
    (update_charts_loop chart_to_articles_map all_charts lookup intercom_update).updated =
      all_charts.countP
        (fun cr =>
          match chartOutcome chart_to_articles_map lookup intercom_update cr with
          | some (b, _) => b
          | none => false) ∧
    (update_charts_loop chart_to_articles_map all_charts lookup intercom_update).failed =
      all_charts.countP
        (fun cr =>
          match chartOutcome chart_to_articles_map lookup intercom_update cr with
          | some (b, _) => !b
          | none => false) ∧
    (update_charts_loop chart_to_articles_map all_charts lookup intercom_update).skipped =
      all_charts.countP
        (fun cr =>
          (cr.status == chars "success" || cr.status == chars "skipped") &&
            (chartOutcome chart_to_articles_map lookup intercom_update cr).isNone) := by
  have h1 := update_fields_go field_to_charts_map intercom_update fields_to_update
    ⟨0, 0, 0, []⟩
  have h2 := update_charts_go chart_to_articles_map lookup intercom_update all_charts
    ⟨0, 0, 0, []⟩
  rw [update_data_fields_loop, update_charts_loop, h1, h2]
  simp
